import Mathlib

/-!
Verification development for the TalkDocs web-crawler core
(`backend/crawler.py`).  The Python code is shallowly embedded: strings are
`List Char`, Python `set`s are lists with membership checks, the event-loop
concurrency is sequentialized (results of a batch are folded in order), and
external collaborators (HTTP responses, the vector store, BeautifulSoup text
extraction, `urljoin`) are oracle parameters.  Python `str` case-mapping and
character classes are modelled at ASCII fidelity, which is the only range the
theorems below exercise.
-/

namespace Crawler

/-! Character and list utilities modelling Python `str` operations. -/

/-- ASCII letter test (`c.isascii() and c.isalpha()` in Python). -/
def isAsciiAlpha (c : Char) : Bool :=
  (65 ≤ c.toNat ∧ c.toNat ≤ 90) ∨ (97 ≤ c.toNat ∧ c.toNat ≤ 122)

/-- ASCII digit test. -/
def isAsciiDigit (c : Char) : Bool := 48 ≤ c.toNat ∧ c.toNat ≤ 57

/-- Python `str.lower` (ASCII range). -/
def lowerStr (l : List Char) : List Char := l.map Char.toLower

/-- Split a list at the first occurrence of `sep`; `none` when absent.
Models Python `find` / `split(sep, 1)`. -/
def splitFirst (sep : Char) : List Char → Option (List Char × List Char)
  | [] => none
  | c :: cs =>
    if c = sep then some ([], cs)
    else
      match splitFirst sep cs with
      | none => none
      | some (a, b) => some (c :: a, b)

/-- Python substring membership `needle in hay`. -/
def containsSub (needle : List Char) : List Char → Bool
  | [] => needle.isEmpty
  | c :: t => needle.isPrefixOf (c :: t) || containsSub needle t

/-- Python `str.replace(needle, repl)`: left-to-right, non-overlapping, all
occurrences.  (Only called with non-empty needles.)  The fuel argument is the
input length; each step consumes at least one character. -/
def replaceSubF (needle repl : List Char) : Nat → List Char → List Char
  | 0, l => l
  | _ + 1, [] => []
  | fuel + 1, c :: t =>
    if needle ≠ [] ∧ needle.isPrefixOf (c :: t) then
      repl ++ replaceSubF needle repl fuel ((c :: t).drop needle.length)
    else
      c :: replaceSubF needle repl fuel t

/-- Python `str.replace(needle, repl)`. -/
def replaceSub (needle repl : List Char) (l : List Char) : List Char :=
  replaceSubF needle repl l.length l

/-- Python whitespace class `\s` over ASCII. -/
def isPyWs (c : Char) : Bool :=
  c = ' ' || c = '\t' || c = '\n' || c = '\x0d' || c = '\x0b' || c = '\x0c'

/-- Python `str.strip()` (ASCII whitespace). -/
def stripWs (l : List Char) : List Char :=
  ((l.dropWhile isPyWs).reverse.dropWhile isPyWs).reverse

/-- Python `re.sub(r'\s+', ' ', s)`: collapse each whitespace run to one
space (a whitespace character followed by another whitespace is dropped, the
last of a run becomes a space). -/
def collapseWs : List Char → List Char
  | [] => []
  | [c] => if isPyWs c then [' '] else [c]
  | c :: d :: t =>
    if isPyWs c then
      if isPyWs d then collapseWs (d :: t) else ' ' :: collapseWs (d :: t)
    else c :: collapseWs (d :: t)

/-- Python `re.sub(r'/+', '/', s)`: collapse each slash run to one slash (a
slash followed by another slash is dropped). -/
def collapseSlashes : List Char → List Char
  | [] => []
  | [c] => [c]
  | c :: d :: t =>
    if c = '/' ∧ d = '/' then collapseSlashes (d :: t)
    else c :: collapseSlashes (d :: t)

/-- Absence of adjacent slashes (the normal form of `collapseSlashes`). -/
def noAdjSlash : List Char → Bool
  | [] => true
  | [_] => true
  | c :: d :: t => !(c = '/' && d = '/') && noAdjSlash (d :: t)

/-- Value of one hex digit, `none` for a non-hex character. -/
def hexVal (c : Char) : Option Nat :=
  if '0' ≤ c ∧ c ≤ '9' then some (c.toNat - '0'.toNat)
  else if 'a' ≤ c ∧ c ≤ 'f' then some (c.toNat - 'a'.toNat + 10)
  else if 'A' ≤ c ∧ c ≤ 'F' then some (c.toNat - 'A'.toNat + 10)
  else none

/-- Uppercase hex digit for a nibble. -/
def hexUpper (n : Nat) : Char :=
  if n < 10 then Char.ofNat ('0'.toNat + n) else Char.ofNat ('A'.toNat + (n - 10))

/-- Lowercase hex digit for a nibble. -/
def hexLower (n : Nat) : Char :=
  if n < 10 then Char.ofNat ('0'.toNat + n) else Char.ofNat ('a'.toNat + (n - 10))

/-- UTF-8 encoding of one character as a byte list. -/
def utf8Encode (c : Char) : List Nat :=
  let n := c.toNat
  if n < 0x80 then [n]
  else if n < 0x800 then [0xC0 + n / 64, 0x80 + n % 64]
  else if n < 0x10000 then [0xE0 + n / 4096, 0x80 + (n / 64) % 64, 0x80 + n % 64]
  else [0xF0 + n / 262144, 0x80 + (n / 4096) % 64, 0x80 + (n / 64) % 64, 0x80 + n % 64]

/-- Unicode replacement character U+FFFD. -/
def replChar : Char := Char.ofNat 0xFFFD

/-- UTF-8 decoding of a byte list, U+FFFD replacement on errors
(models `bytes.decode('utf-8', errors='replace')`).  The fuel argument is the
input length; every step consumes at least one byte. -/
def utf8DecodeReplF : Nat → List Nat → List Char
  | 0, _ => []
  | _ + 1, [] => []
  | fuel + 1, b :: rest =>
    if b < 0x80 then
      Char.ofNat b :: utf8DecodeReplF fuel rest
    else if 0xC2 ≤ b ∧ b ≤ 0xDF then
      match rest with
      | b2 :: r2 =>
        if 0x80 ≤ b2 ∧ b2 ≤ 0xBF then
          Char.ofNat ((b - 0xC0) * 64 + (b2 - 0x80)) :: utf8DecodeReplF fuel r2
        else replChar :: utf8DecodeReplF fuel rest
      | [] => [replChar]
    else if 0xE0 ≤ b ∧ b ≤ 0xEF then
      match rest with
      | b2 :: b3 :: r3 =>
        if 0x80 ≤ b2 ∧ b2 ≤ 0xBF ∧ 0x80 ≤ b3 ∧ b3 ≤ 0xBF ∧
            (0xD800 > (b - 0xE0) * 4096 + (b2 - 0x80) * 64 + (b3 - 0x80) ∨
             (b - 0xE0) * 4096 + (b2 - 0x80) * 64 + (b3 - 0x80) > 0xDFFF) ∧
            (b - 0xE0) * 4096 + (b2 - 0x80) * 64 + (b3 - 0x80) ≥ 0x800 then
          Char.ofNat ((b - 0xE0) * 4096 + (b2 - 0x80) * 64 + (b3 - 0x80)) ::
            utf8DecodeReplF fuel r3
        else replChar :: utf8DecodeReplF fuel rest
      | _ => replChar :: utf8DecodeReplF fuel rest
    else if 0xF0 ≤ b ∧ b ≤ 0xF4 then
      match rest with
      | b2 :: b3 :: b4 :: r4 =>
        if 0x80 ≤ b2 ∧ b2 ≤ 0xBF ∧ 0x80 ≤ b3 ∧ b3 ≤ 0xBF ∧ 0x80 ≤ b4 ∧ b4 ≤ 0xBF ∧
            (b - 0xF0) * 262144 + (b2 - 0x80) * 4096 + (b3 - 0x80) * 64 + (b4 - 0x80) ≥ 0x10000 ∧
            (b - 0xF0) * 262144 + (b2 - 0x80) * 4096 + (b3 - 0x80) * 64 + (b4 - 0x80) ≤ 0x10FFFF then
          Char.ofNat ((b - 0xF0) * 262144 + (b2 - 0x80) * 4096 + (b3 - 0x80) * 64 + (b4 - 0x80)) ::
            utf8DecodeReplF fuel r4
        else replChar :: utf8DecodeReplF fuel rest
      | _ => replChar :: utf8DecodeReplF fuel rest
    else replChar :: utf8DecodeReplF fuel rest

/-- UTF-8 decoding with replacement. -/
def utf8DecodeRepl (l : List Nat) : List Char := utf8DecodeReplF l.length l

/-- Decoding of a two-hex-digit escape payload: the byte and the remaining
input, or `none` when the next two characters are not hex digits. -/
def escByte : List Char → Option (Nat × List Char)
  | a :: b :: rest2 =>
    match hexVal a, hexVal b with
    | some h, some l => some (16 * h + l, rest2)
    | _, _ => none
  | _ => none

/-- Tokenizer for `urllib.parse.unquote`: a `%XX` escape with two hex digits
becomes a byte, anything else stays a literal character.  The fuel argument
is the input length; each step consumes at least one character. -/
def unquoteTokensF : Nat → List Char → List (Sum Char Nat)
  | 0, _ => []
  | _ + 1, [] => []
  | fuel + 1, c :: rest =>
    if c = '%' then
      match escByte rest with
      | some (b, rest2) => Sum.inr b :: unquoteTokensF fuel rest2
      | none => Sum.inl c :: unquoteTokensF fuel rest
    else Sum.inl c :: unquoteTokensF fuel rest

/-- Tokenizer for `urllib.parse.unquote`. -/
def unquoteTokens (l : List Char) : List (Sum Char Nat) := unquoteTokensF l.length l

/-- Reassembly for `unquote`: literal characters pass through, maximal runs
of escaped bytes are UTF-8-decoded with replacement.  The first argument
accumulates the current byte run in reverse. -/
def unquoteGo (bs : List Nat) : List (Sum Char Nat) → List Char
  | [] => utf8DecodeRepl bs.reverse
  | Sum.inl c :: rest => utf8DecodeRepl bs.reverse ++ c :: unquoteGo [] rest
  | Sum.inr b :: rest => unquoteGo (b :: bs) rest

/-- Python `urllib.parse.unquote` on a string. -/
def unquoteM (l : List Char) : List Char := unquoteGo [] (unquoteTokens l)

/-- Characters `urllib.parse.quote` never escapes (ASCII letters, digits,
`_.-~`). -/
def isAlwaysSafe (c : Char) : Bool :=
  isAsciiAlpha c || isAsciiDigit c || c = '_' || c = '.' || c = '-' || c = '~'

/-- Percent-escape of one byte, uppercase hex. -/
def pctByte (b : Nat) : List Char := ['%', hexUpper (b / 16), hexUpper (b % 16)]

/-- Python `urllib.parse.quote_plus(s, safe='')`: spaces become `+`, safe
characters pass through, everything else is percent-escaped bytewise. -/
def quotePlus (s : List Char) : List Char :=
  s.foldr
    (fun c acc =>
      (if c = ' ' then ['+']
       else if isAlwaysSafe c then [c]
       else (utf8Encode c).foldr (fun b a => pctByte b ++ a) []) ++ acc)
    []

/-- Python `'+' -> ' '` then `unquote`, as done by `parse_qsl` on each field. -/
def unquotePlusM (s : List Char) : List Char :=
  unquoteM (s.map fun c => if c = '+' then ' ' else c)

/-- Python `str.split(sep)`: splits at every separator, keeps empty pieces.
The accumulator holds the current piece in reverse. -/
def splitSepGo (sep : Char) (acc : List Char) : List Char → List (List Char)
  | [] => [acc.reverse]
  | c :: t =>
    if c = sep then acc.reverse :: splitSepGo sep [] t
    else splitSepGo sep (c :: acc) t

/-- Python `str.split(sep)`. -/
def splitSep (sep : Char) (l : List Char) : List (List Char) := splitSepGo sep [] l

/-- Python `urllib.parse.parse_qsl(qs, keep_blank_values=True)`. -/
def parseQsl (qs : List Char) : List (List Char × List Char) :=
  (splitSep '&' qs).filterMap fun nv =>
    if nv = [] then none
    else
      match splitFirst '=' nv with
      | some (n, v) => some (unquotePlusM n, unquotePlusM v)
      | none => some (unquotePlusM nv, [])

/-- One `key=value` piece of `urlencode`. -/
def encodePair (p : List Char × List Char) : List Char :=
  quotePlus p.1 ++ '=' :: quotePlus p.2

/-- Python `urllib.parse.urlencode(pairs)` with the default `quote_plus`:
the pieces joined by `&`. -/
def urlencodeM : List (List Char × List Char) → List Char
  | [] => []
  | [p] => encodePair p
  | p :: ps => encodePair p ++ '&' :: urlencodeM ps

/-- Boolean code-point comparison of strings (Python `str` `<=`). -/
def strLeB : List Char → List Char → Bool
  | [], _ => true
  | _ :: _, [] => false
  | a :: as, b :: bs => if a = b then strLeB as bs else decide (a < b)

/-- Python tuple comparison `(k1,v1) <= (k2,v2)` used by `sorted`. -/
def pairLe (p q : List Char × List Char) : Prop :=
  (if p.1 = q.1 then strLeB p.2 q.2 else strLeB p.1 q.1) = true

instance : DecidableRel pairLe := fun p q => by unfold pairLe; infer_instance

/-! Model of `urllib.parse.urlparse` / `urlunparse` (CPython semantics). -/

/-- Components returned by `urlparse`. -/
structure UrlParts where
  scheme : List Char
  netloc : List Char
  path : List Char
  params : List Char
  query : List Char
  fragment : List Char
deriving Repr, DecidableEq

/-- Characters CPython removes from a URL before splitting (tab, CR, LF). -/
def isUnsafeUrlChar (c : Char) : Bool := c = '\t' || c = '\x0d' || c = '\n'

/-- Removal of tab/CR/LF, as done at the top of `urlsplit`. -/
def removeUnsafe (l : List Char) : List Char := l.filter fun c => !isUnsafeUrlChar c

/-- Characters allowed in a URL scheme after the first (letters, digits, `+-.`). -/
def schemeChar (c : Char) : Bool :=
  isAsciiAlpha c || isAsciiDigit c || c = '+' || c = '-' || c = '.'

/-- Scheme detection of `urlsplit`: a valid scheme prefix before the first `:`
is split off and lower-cased, otherwise the scheme is empty. -/
def splitScheme (url : List Char) : List Char × List Char :=
  match splitFirst ':' url with
  | some (c :: pre, rest) =>
    if isAsciiAlpha c && (c :: pre).all schemeChar then (lowerStr (c :: pre), rest)
    else ([], url)
  | _ => ([], url)

/-- Characters terminating the netloc in `_splitnetloc`. -/
def netlocStop (c : Char) : Bool := c = '/' || c = '?' || c = '#'

/-- Netloc split of `urlsplit`: only when the rest starts with `//`. -/
def splitNetloc (rest : List Char) : Option (List Char × List Char) :=
  if rest.take 2 = ['/', '/'] then
    some ((rest.drop 2).takeWhile (fun c => !netlocStop c),
      (rest.drop 2).dropWhile (fun c => !netlocStop c))
  else none

/-- The netloc stage with its no-netloc default. -/
def splitNetlocD (rest1 : List Char) : List Char × List Char :=
  match splitNetloc rest1 with
  | some p => p
  | none => ([], rest1)

/-- The fragment split (`url.split('#', 1)` when `'#' in url`). -/
def splitFragment (rest2 : List Char) : List Char × List Char :=
  match splitFirst '#' rest2 with
  | some (a, b) => (a, b)
  | none => (rest2, [])

/-- The query split (`url.split('?', 1)` when `'?' in url`). -/
def splitQuery (rest3 : List Char) : List Char × List Char :=
  match splitFirst '?' rest3 with
  | some (a, b) => (a, b)
  | none => (rest3, [])

/-- Model of `urllib.parse.urlsplit`.  Returns `none` exactly when CPython
raises `ValueError` (unbalanced brackets in the netloc), which
`_normalize_url` catches. -/
def urlsplitM (url0 : List Char) :
    Option (List Char × List Char × List Char × List Char × List Char) :=
  let url1 := removeUnsafe url0
  let sp := splitScheme url1
  let np := splitNetlocD sp.2
  if (np.1.contains '[' && !np.1.contains ']') ||
      (np.1.contains ']' && !np.1.contains '[') then none
  else
    let fp := splitFragment np.2
    let qp := splitQuery fp.1
    some (sp.1, np.1, qp.1, qp.2, fp.2)

/-- Split of a path at its last slash: `l = a ++ '/' :: b` with no slash in
`b`; `none` when the path has no slash. -/
def splitLastSlash : List Char → Option (List Char × List Char)
  | [] => none
  | c :: t =>
    match splitLastSlash t with
    | some (a, b) => some (c :: a, b)
    | none => if c = '/' then some ([], t) else none

/-- The `_splitparams` helper of `urlparse`: the params component is what
follows the first `;` of the last path segment. -/
def splitParams (p : List Char) : List Char × List Char :=
  match splitLastSlash p with
  | some (a, seg) =>
    match splitFirst ';' seg with
    | none => (p, [])
    | some (s1, s2) => (a ++ '/' :: s1, s2)
  | none =>
    match splitFirst ';' p with
    | none => (p, [])
    | some (a, b) => (a, b)

/-- Model of `urllib.parse.urlparse`. -/
def urlparseM (url : List Char) : Option UrlParts :=
  match urlsplitM url with
  | none => none
  | some (scheme, netloc, path, query, fragment) =>
    let pp := splitParams path
    some ⟨scheme, netloc, pp.1, pp.2, query, fragment⟩

/-- Model of `urllib.parse.urlunsplit`. -/
def urlunsplitM (scheme netloc url query fragment : List Char) : List Char :=
  let url :=
    if netloc ≠ [] ∨ url.take 2 = ['/', '/'] then
      '/' :: '/' :: netloc ++
        (if url ≠ [] ∧ url.take 1 ≠ ['/'] then '/' :: url else url)
    else url
  let url := if scheme ≠ [] then scheme ++ ':' :: url else url
  let url := if query ≠ [] then url ++ '?' :: query else url
  if fragment ≠ [] then url ++ '#' :: fragment else url

/-- Model of `urllib.parse.urlunparse`. -/
def urlunparseM (u : UrlParts) : List Char :=
  urlunsplitM u.scheme u.netloc
    (if u.params ≠ [] then u.path ++ ';' :: u.params else u.path)
    u.query u.fragment

/-! Model of `WebCrawler._normalize_url` (crawler.py lines 69-131).  The
per-instance fingerprint cache (`self._fingerprint_cache`) only memoizes the
pure computation and is omitted. -/

/-- Tracking query keys dropped by `_normalize_url`. -/
def skipQueryKeys : List (List Char) :=
  ["utm_source".data, "utm_medium".data, "utm_campaign".data, "utm_term".data,
   "utm_content".data, "ref".data, "source".data, "fbclid".data, "gclid".data,
   "_ga".data, "_gl".data]

/-- Scheme normalization: lower-case, defaulting to `https` when absent. -/
def normScheme (s : List Char) : List Char :=
  let s := lowerStr s
  if s = [] then "https".data else s

/-- Netloc normalization: lower-case, strip one `www.` prefix, remove default
ports (`:80` for http, `:443` for https) by substring replacement. -/
def normNetloc (scheme n : List Char) : List Char :=
  let n := lowerStr n
  let n := if "www.".data.isPrefixOf n then n.drop 4 else n
  if containsSub ":80".data n ∧ scheme = "http".data then
    replaceSub ":80".data [] n
  else if containsSub ":443".data n ∧ scheme = "https".data then
    replaceSub ":443".data [] n
  else n

/-- Path normalization: strip one trailing slash (root kept), collapse slash
runs (empty result becomes `/`), percent-decode. -/
def normPath (p : List Char) : List Char :=
  let p := if p ≠ ['/'] ∧ p.getLast? = some '/' then p.dropLast else p
  let p := let p2 := collapseSlashes p; if p2 = [] then "/".data else p2
  unquoteM p

/-- Query normalization: parse, drop tracking keys, lower-case the kept keys,
sort the pairs, re-encode; empty when no pair remains. -/
def normQuery (q : List Char) : List Char :=
  if q ≠ [] then
    let pairs := parseQsl q
    let filtered := pairs.filterMap fun kv =>
      if skipQueryKeys.contains (lowerStr kv.1) then none
      else some (lowerStr kv.1, kv.2)
    if filtered ≠ [] then urlencodeM (filtered.insertionSort pairLe) else []
  else []

/-- Model of `WebCrawler._normalize_url`: canonicalize a URL, falling back to
the raw input when parsing fails. -/
def normalizeUrlL (url : List Char) : List Char :=
  match urlparseM url with
  | none => url
  | some u =>
    urlunparseM
      ⟨normScheme u.scheme, normNetloc (normScheme u.scheme) u.netloc,
       normPath u.path, u.params, normQuery u.query, []⟩

/-- String-level wrapper of `_normalize_url`. -/
def normalize_url (s : String) : String := ⟨normalizeUrlL s.data⟩

/-! Model of `hashlib.md5` over byte lists (words are `Nat` mod `2^32`). -/

/-- The 64 MD5 sine-derived constants. -/
def md5K : List Nat :=
  [0xD76AA478, 0xE8C7B756, 0x242070DB, 0xC1BDCEEE, 0xF57C0FAF, 0x4787C62A, 0xA8304613, 0xFD469501,
   0x698098D8, 0x8B44F7AF, 0xFFFF5BB1, 0x895CD7BE, 0x6B901122, 0xFD987193, 0xA679438E, 0x49B40821,
   0xF61E2562, 0xC040B340, 0x265E5A51, 0xE9B6C7AA, 0xD62F105D, 0x02441453, 0xD8A1E681, 0xE7D3FBC8,
   0x21E1CDE6, 0xC33707D6, 0xF4D50D87, 0x455A14ED, 0xA9E3E905, 0xFCEFA3F8, 0x676F02D9, 0x8D2A4C8A,
   0xFFFA3942, 0x8771F681, 0x6D9D6122, 0xFDE5380C, 0xA4BEEA44, 0x4BDECFA9, 0xF6BB4B60, 0xBEBFBC70,
   0x289B7EC6, 0xEAA127FA, 0xD4EF3085, 0x04881D05, 0xD9D4D039, 0xE6DB99E5, 0x1FA27CF8, 0xC4AC5665,
   0xF4292244, 0x432AFF97, 0xAB9423A7, 0xFC93A039, 0x655B59C3, 0x8F0CCC92, 0xFFEFF47D, 0x85845DD1,
   0x6FA87E4F, 0xFE2CE6E0, 0xA3014314, 0x4E0811A1, 0xF7537E82, 0xBD3AF235, 0x2AD7D2BB, 0xEB86D391]

/-- The MD5 per-round left-rotation amounts. -/
def md5S : List Nat :=
  [7, 12, 17, 22, 7, 12, 17, 22, 7, 12, 17, 22, 7, 12, 17, 22,
   5, 9, 14, 20, 5, 9, 14, 20, 5, 9, 14, 20, 5, 9, 14, 20,
   4, 11, 16, 23, 4, 11, 16, 23, 4, 11, 16, 23, 4, 11, 16, 23,
   6, 10, 15, 21, 6, 10, 15, 21, 6, 10, 15, 21, 6, 10, 15, 21]

/-- 32-bit truncation. -/
def w32 (n : Nat) : Nat := n % 4294967296

/-- 32-bit left rotation. -/
def rotl32 (x s : Nat) : Nat := w32 (x * 2 ^ s) + x / 2 ^ (32 - s)

/-- 32-bit bitwise complement. -/
def not32 (x : Nat) : Nat := 4294967295 ^^^ x

/-- MD5 padding: `0x80`, zeros to 56 mod 64, then the bit length in 8
little-endian bytes. -/
def md5Pad (msg : List Nat) : List Nat :=
  let n := msg.length
  let zeros := (64 + 56 - (n + 1) % 64) % 64
  let bitLen := (8 * n) % (2 ^ 64)
  msg ++ 0x80 :: List.replicate zeros 0 ++
    (List.range 8).map fun i => bitLen / 2 ^ (8 * i) % 256

/-- Little-endian 32-bit words from a 64-byte chunk. -/
def md5Words (chunk : List Nat) : List Nat :=
  (List.range 16).map fun g =>
    chunk.getD (4 * g) 0 + 256 * chunk.getD (4 * g + 1) 0 +
      65536 * chunk.getD (4 * g + 2) 0 + 16777216 * chunk.getD (4 * g + 3) 0

/-- One MD5 round; `i` is the round index, state is `(A, B, C, D)`. -/
def md5Round (m : List Nat) (st : Nat × Nat × Nat × Nat) (i : Nat) :
    Nat × Nat × Nat × Nat :=
  let (a, b, c, d) := st
  let f :=
    if i < 16 then (b &&& c) ||| (not32 b &&& d)
    else if i < 32 then (d &&& b) ||| (not32 d &&& c)
    else if i < 48 then b ^^^ c ^^^ d
    else c ^^^ (b ||| not32 d)
  let g :=
    if i < 16 then i
    else if i < 32 then (5 * i + 1) % 16
    else if i < 48 then (3 * i + 5) % 16
    else (7 * i) % 16
  let f := w32 (f + a + md5K.getD i 0 + m.getD g 0)
  (d, w32 (b + rotl32 f (md5S.getD i 0)), b, c)

/-- One 64-byte chunk folded into the running state. -/
def md5Chunk (st : Nat × Nat × Nat × Nat) (chunk : List Nat) :
    Nat × Nat × Nat × Nat :=
  let (a0, b0, c0, d0) := st
  let r := (List.range 64).foldl (md5Round (md5Words chunk)) (a0, b0, c0, d0)
  (w32 (a0 + r.1), w32 (b0 + r.2.1), w32 (c0 + r.2.2.1), w32 (d0 + r.2.2.2))

/-- Lowercase hex of one 32-bit word, little-endian byte order
(as in `hexdigest`). -/
def md5WordHex (x : Nat) : List Char :=
  ((List.range 4).map fun i => x / 2 ^ (8 * i) % 256).foldr
    (fun b acc => hexLower (b / 16) :: hexLower (b % 16) :: acc) []

/-- Model of `hashlib.md5(bytes).hexdigest()`. -/
def md5Hex (msg : List Nat) : List Char :=
  let chunks := (md5Pad msg).toChunks 64
  let r := chunks.foldl md5Chunk (0x67452301, 0xEFCDAB89, 0x98BADCFE, 0x10325476)
  md5WordHex r.1 ++ md5WordHex r.2.1 ++ md5WordHex r.2.2.1 ++ md5WordHex r.2.2.2



/-! Model of `WebCrawler._is_valid_url` (crawler.py lines 133-163). -/

/-- File extensions of the non-content skip patterns (matched case-insensitively
at the end of the URL). -/
def skipExtensions : List (List Char) :=
  [".pdf".data, ".doc".data, ".docx".data, ".xls".data, ".xlsx".data,
   ".ppt".data, ".pptx".data, ".zip".data, ".rar".data, ".tar".data, ".gz".data,
   ".jpg".data, ".jpeg".data, ".png".data, ".gif".data, ".svg".data,
   ".ico".data, ".webp".data, ".css".data, ".js".data, ".json".data, ".xml".data]

/-- Model of `_is_valid_url`: http(s) scheme, same netloc as the base, and none
of the skip patterns (extension suffixes, a fragment marker, `mailto:`,
`tel:`). -/
def is_valid_url (url base : List Char) : Bool :=
  match urlparseM url, urlparseM base with
  | some pu, some pb =>
    (pu.scheme = "http".data || pu.scheme = "https".data) &&
    pu.netloc = pb.netloc &&
    !(skipExtensions.any fun ext => ext.isSuffixOf (lowerStr url)) &&
    !(containsSub "#".data url) &&
    !(containsSub "mailto:".data (lowerStr url)) &&
    !(containsSub "tel:".data (lowerStr url))
  | _, _ => false

/-! Content hashing and duplicate detection (crawler.py lines 237-250). -/

/-- Model of `_compute_content_hash`: md5 hex digest of the lower-cased,
stripped, whitespace-collapsed content, UTF-8 encoded. -/
def compute_content_hash (content : List Char) : List Char :=
  md5Hex ((collapseWs (stripWs (lowerStr content))).foldr
    (fun c acc => utf8Encode c ++ acc) [])

/-- Model of `_is_duplicate_content` over the `_content_hashes` set: returns
the verdict and the updated hash set. -/
def is_duplicate_content (hashes : List (List Char)) (content : List Char) :
    Bool × List (List Char) :=
  let h := compute_content_hash content
  if hashes.contains h then (true, hashes)
  else (false, h :: hashes)

/-! Model of the parse stage `_parse_html_in_thread` (crawler.py lines
294-339).  BeautifulSoup extraction is abstracted: a `SoupData` value holds
what the soup queries of `_extract_canonical_url` / `_extract_content` /
`find_all('a')` return; the final whitespace cleanup of `_extract_content`
(lines 279-280) is modelled since the dedup behaviour depends on it.
`urljoin` is an external resolver passed as the parameter `uj`.  The
`try/except` wrapper (parse failure returns `None`) is not modelled: the
oracle inputs are total. -/

/-- Abstraction of the BeautifulSoup queries performed by the parse stage. -/
structure SoupData where
  canonical : Option (List Char)
  title : List Char
  rawContent : List Char
  metaDesc : List Char
  hrefs : List (List Char)

/-- The page record built by `_parse_html_in_thread`. -/
structure PageRecord where
  url : List Char
  title : List Char
  content : List Char
  metaDesc : List Char
  timestamp : Rat
  links : List (List Char)
deriving Repr, DecidableEq

/-- Cleanup of extracted text (lines 279-280): collapse whitespace runs, then
strip. -/
def cleanContent (raw : List Char) : List Char := stripWs (collapseWs raw)

/-- Model of `_extract_canonical_url`: the canonical href, absolutized via
`urljoin` when it does not start with `http`. -/
def extract_canonical (uj : List Char → List Char → List Char)
    (current : List Char) (s : SoupData) : Option (List Char) :=
  match s.canonical with
  | some href => some (if "http".data.isPrefixOf href then href else uj current href)
  | none => none

/-- The link-extraction loop (lines 322-333): resolve each href, keep in-scope
links, de-duplicate by normalized fingerprint, preserve order. -/
def extract_links (uj : List Char → List Char → List Char)
    (url : List Char) (hrefs : List (List Char)) : List (List Char) :=
  (hrefs.foldl
    (fun (acc : List (List Char) × List (List Char)) href =>
      let absolute := uj url href
      if is_valid_url absolute url then
        let n := normalizeUrlL absolute
        if acc.1.contains n then acc else (n :: acc.1, absolute :: acc.2)
      else acc)
    ([], [])).2.reverse

/-- Model of `_parse_html_in_thread`: canonical substitution, content
extraction, content-hash duplicate check, link extraction.  Returns the
optional page record and the updated content-hash set. -/
def parse_html (uj : List Char → List Char → List Char) (now : Rat)
    (hashes : List (List Char)) (url : List Char) (s : SoupData) :
    Option PageRecord × List (List Char) :=
  let url :=
    match extract_canonical uj url s with
    | some cu => if normalizeUrlL cu ≠ normalizeUrlL url then cu else url
    | none => url
  let content := cleanContent s.rawContent
  let dup := if content ≠ [] then is_duplicate_content hashes content else (false, hashes)
  if dup.1 then (none, dup.2)
  else
    (some ⟨url, s.title, content, s.metaDesc, now, extract_links uj url s.hrefs⟩,
     dup.2)

/-! Model of `_fetch_page` (crawler.py lines 341-389). -/

/-- Classification of one HTTP attempt, mirroring lines 349-375. -/
inductive AttemptClass where
  | proceedToParse
  | terminal4xx
  | skipNonHtml
  | retryError
deriving Repr, DecidableEq

/-- Status/content-type classification of `_fetch_page`: only status 200
reaches the content-type check; 4xx is terminal, other non-200 raise a
retryable `ClientError`; a 200 without `text/html` in the (lower-cased)
content type is a skip. -/
def classify_response (status : Nat) (contentType : List Char) : AttemptClass :=
  if status ≠ 200 then
    if 400 ≤ status ∧ status < 500 then AttemptClass.terminal4xx
    else AttemptClass.retryError
  else if !containsSub "text/html".data (lowerStr contentType) then
    AttemptClass.skipNonHtml
  else AttemptClass.proceedToParse

/-- Outcome of issuing one GET: a response, or a network/timeout exception. -/
inductive AttemptResult where
  | response (status : Nat) (contentType : List Char) (parsed : Option PageRecord)
  | netError

/-- The retry loop of `_fetch_page`.  `attempt` and `fuel` satisfy
`fuel = maxRetries - attempt`, mirroring `while attempt < max_retries`.
Returns the result, the number of GETs issued, and the backoff sleeps
performed (in seconds, as exact rationals). -/
def fetchGo (maxRetries : Nat) (backoff : Rat) (att : Nat → AttemptResult) :
    Nat → Nat → Option PageRecord × Nat × List Rat
  | _, 0 => (none, 0, [])
  | attempt, fuel + 1 =>
    let retry : Option PageRecord × Nat × List Rat :=
      let a2 := attempt + 1
      let sl : List Rat := if a2 < maxRetries then [backoff ^ a2] else []
      let r := fetchGo maxRetries backoff att a2 fuel
      (r.1, r.2.1 + 1, sl ++ r.2.2)
    match att attempt with
    | AttemptResult.response status ctype parsed =>
      match classify_response status ctype with
      | AttemptClass.terminal4xx => (none, 1, [])
      | AttemptClass.skipNonHtml => (none, 1, [])
      | AttemptClass.proceedToParse => (parsed, 1, [])
      | AttemptClass.retryError => retry
    | AttemptResult.netError => retry

/-- Model of `_fetch_page`: start at attempt 0 with `maxRetries` iterations
available. -/
def fetch_page (maxRetries : Nat) (backoff : Rat) (att : Nat → AttemptResult) :
    Option PageRecord × Nat × List Rat :=
  fetchGo maxRetries backoff att 0 maxRetries

/-! Model of the robots gatekeeper (crawler.py lines 165-202).  The HTTP
fetch of `robots.txt` and the `RobotFileParser.can_fetch` judgment are
oracles; a cached `none` is the "allow all" sentinel (`robot_parsers[url] =
None`).  The crawl session is assumed open (the `if not self.session` guard
is not exercised). -/

/-- Oracles for the robots subsystem: `resp url = none` models a fetch
exception, otherwise the status and body text. -/
structure RobotsWorld where
  resp : List Char → Option (Nat × List Char)
  canFetch : List Char → List Char → List Char → Bool

/-- The `robot_parsers` cache: robots URL to parsed content or the allow-all
sentinel. -/
abbrev RobotsCache := List (List Char × Option (List Char))

/-- The robots.txt URL for a base URL (lines 167-168); `none` when the base
URL itself does not parse. -/
def robotsUrlOf (base : List Char) : Option (List Char) :=
  (urlsplitM base).map fun r => urlunsplitM r.1 r.2.1 "/robots.txt".data [] []

/-- Model of `_get_robot_parser`: cache hit returns the cached entry with no
fetch; otherwise one fetch populates the cache (non-200 or error caches the
allow-all sentinel).  The third component records whether a fetch was
performed. -/
def get_robot_rules (w : RobotsWorld) (cache : RobotsCache) (ru : List Char) :
    Option (List Char) × RobotsCache × Bool :=
  match cache.lookup ru with
  | some entry => (entry, cache, false)
  | none =>
    match w.resp ru with
    | some (status, text) =>
      if status = 200 then (some text, (ru, some text) :: cache, true)
      else (none, (ru, none) :: cache, true)
    | none => (none, (ru, none) :: cache, true)

/-- Model of `_is_allowed_by_robots`: a missing parser (allow-all sentinel)
permits everything, otherwise `can_fetch` decides. -/
def is_allowed_by_robots (w : RobotsWorld) (cache : RobotsCache)
    (ua url base : List Char) : Bool × RobotsCache × Bool :=
  match robotsUrlOf base with
  | none => (true, cache, false)
  | some ru =>
    match get_robot_rules w cache ru with
    | (none, cache2, fetched) => (true, cache2, fetched)
    | (some text, cache2, fetched) => (w.canFetch text ua url, cache2, fetched)

/-! Model of the frontier scheduler (crawler.py lines 204-220 and 412-622).
The robots verdict is a pure oracle here (its stateful caching is modelled
above); `_fetch_page`'s end-to-end outcome and the storage collaborator's
answers are oracles.  The `asyncio.gather` fan-out is sequentialized: the
batch's `process_url` calls run in order, then the results are folded in
order, exactly as the result loop does.  The persistence pipeline is
collapsed into a direct append to `new_pages` (its success path). -/

/-- Oracles of one crawl run. -/
structure CrawlWorld where
  allowed : List Char → Bool
  storeExists : List Char → Bool
  storeDocs : List Char → List (List Char)
  fetch : List Char → Option PageRecord

/-- Configuration of one crawl run. -/
structure CrawlConfig where
  startUrl : List Char
  maxDepth : Nat
  maxPages : Nat
  maxConcurrent : Nat
  hasStore : Bool

/-- Mutable crawl state.  `fetchLog` instruments the calls to `_fetch_page`
(the code performs a network GET exactly when an entry is appended). -/
structure CrawlState where
  visited : List (List Char)
  newPages : List PageRecord
  existingDocs : List (List Char)
  fetchLog : List (List Char × Nat)

/-- Model of `_should_visit`: depth bound, scope check, fingerprint
membership, robots permission; returns the verdict and the fingerprint. -/
def should_visit (allowed : List Char → Bool) (visited : List (List Char))
    (url : List Char) (depth maxDepth : Nat) (base : List Char) :
    Bool × Option (List Char) :=
  if depth > maxDepth then (false, none)
  else if !is_valid_url url base then (false, none)
  else
    let n := normalizeUrlL url
    if visited.contains n then (false, some n)
    else if !allowed url then (false, some n)
    else (true, some n)

/-- Model of `_check_existing_urls` for a single URL: `False` without a
store, otherwise the collaborator verdict (its failure mode also yields
`False`). -/
def check_existing_url (hasStore : Bool) (w : CrawlWorld) (url : List Char) : Bool :=
  if hasStore then w.storeExists url else false

/-- Model of the `process_url` closure of `crawl_domain_with_duplicate_check`
(lines 517-547): admission check, visited marking, cross-run duplicate
short-circuit, fetch. -/
def process_url (cfg : CrawlConfig) (w : CrawlWorld) (st : CrawlState)
    (url : List Char) (depth : Nat) :
    Option (PageRecord × List Char × Nat) × CrawlState :=
  let sv := should_visit w.allowed st.visited url depth cfg.maxDepth cfg.startUrl
  if !sv.1 then (none, st)
  else
    let st :=
      match sv.2 with
      | some fp => { st with visited := fp :: st.visited }
      | none => st
    if check_existing_url cfg.hasStore w url then
      (none, { st with existingDocs := st.existingDocs ++ w.storeDocs url })
    else
      let st := { st with fetchLog := st.fetchLog ++ [(url, depth)] }
      match w.fetch url with
      | some page => (some (page, url, depth), st)
      | none => (none, st)

/-- Folding one `process_url` result into state, queue and page count
(lines 567-597).  The queue is a LIFO: its head is the deque's right end, so
a push is a cons. -/
def process_result (cfg : CrawlConfig) (st : CrawlState)
    (q : List (List Char × Nat)) (count : Nat)
    (r : Option (PageRecord × List Char × Nat)) :
    CrawlState × List (List Char × Nat) × Nat :=
  match r with
  | none => (st, q, count)
  | some (page, _, depth) =>
    let st2 := { st with newPages := st.newPages ++ [page] }
    if depth < cfg.maxDepth then
      let newLinks := page.links.filter fun l => !st2.visited.contains (normalizeUrlL l)
      (st2, newLinks.foldl (fun acc l => (l, depth + 1) :: acc) q, count + 1)
    else (st2, q, count + 1)

/-- One `process_url` call folded into the batch accumulator (the
sequentialized `asyncio.gather` fan-out). -/
def runBatchStep (cfg : CrawlConfig) (w : CrawlWorld)
    (acc : List (Option (PageRecord × List Char × Nat)) × CrawlState)
    (e : List Char × Nat) :
    List (Option (PageRecord × List Char × Nat)) × CrawlState :=
  let pr := process_url cfg w acc.2 e.1 e.2
  (acc.1 ++ [pr.1], pr.2)

/-- One result folded into state, queue and count (the result loop). -/
def foldResultStep (cfg : CrawlConfig)
    (acc : CrawlState × List (List Char × Nat) × Nat)
    (r : Option (PageRecord × List Char × Nat)) :
    CrawlState × List (List Char × Nat) × Nat :=
  process_result cfg acc.1 acc.2.1 acc.2.2 r

/-- One scheduling tick of `crawl_domain_with_duplicate_check`: pop a batch,
run `process_url` over it in order, fold the results in order. -/
def crawlStepDup (cfg : CrawlConfig) (w : CrawlWorld) (st : CrawlState)
    (q : List (List Char × Nat)) (count : Nat) :
    CrawlState × List (List Char × Nat) × Nat :=
  let batchSize := min cfg.maxConcurrent (cfg.maxPages - count)
  let batch := q.take batchSize
  let rest := q.drop batchSize
  let ran := batch.foldl (runBatchStep cfg w) ([], st)
  ran.1.foldl (foldResultStep cfg) (ran.2, rest, count)

/-- The scheduling loop of `crawl_domain_with_duplicate_check` (fuel-indexed;
the loop exits when the frontier is empty or the page budget is reached). -/
def crawlRunDup (cfg : CrawlConfig) (w : CrawlWorld) :
    Nat → CrawlState → List (List Char × Nat) → Nat → CrawlState
  | 0, st, _, _ => st
  | fuel + 1, st, q, count =>
    if q = [] ∨ count ≥ cfg.maxPages then st
    else
      let t := crawlStepDup cfg w st q count
      crawlRunDup cfg w fuel t.1 t.2.1 t.2.2

/-- The DFS loop body of `crawl_domain` (lines 430-465), one popped entry per
iteration. -/
def crawlRunSimple (cfg : CrawlConfig) (w : CrawlWorld) :
    Nat → CrawlState → List (List Char × Nat) → Nat → CrawlState
  | 0, st, _, _ => st
  | fuel + 1, st, q, count =>
    if count ≥ cfg.maxPages then st
    else
      match q with
      | [] => st
      | (url, depth) :: q2 =>
        let sv := should_visit w.allowed st.visited url depth cfg.maxDepth cfg.startUrl
        if !sv.1 then crawlRunSimple cfg w fuel st q2 count
        else
          let st2 :=
            match sv.2 with
            | some fp => { st with visited := fp :: st.visited }
            | none => st
          let st3 := { st2 with fetchLog := st2.fetchLog ++ [(url, depth)] }
          match w.fetch url with
          | some page =>
            let st4 := { st3 with newPages := st3.newPages ++ [page] }
            let q3 :=
              if depth < cfg.maxDepth then
                (page.links.filter fun l => !st4.visited.contains (normalizeUrlL l)).foldl
                  (fun acc l => (l, depth + 1) :: acc) q2
              else q2
            crawlRunSimple cfg w fuel st4 q3 (count + 1)
          | none => crawlRunSimple cfg w fuel st3 q2 count

/-- Python exceptions surfaced by the model. -/
inductive PyErr where
  | zeroDivision
deriving Repr, DecidableEq

/-- Python division: raises `ZeroDivisionError` on a zero divisor (also for
floats). -/
def pyDiv (a b : Rat) : Except PyErr Rat :=
  if b = 0 then Except.error PyErr.zeroDivision else Except.ok (a / b)

/-- The empty crawl state (the sets are cleared at the start of a run). -/
def initState : CrawlState := ⟨[], [], [], []⟩

/-- Entry point `crawl_domain` (lines 412-473): the throttler rate `1/delay`
is computed before the loop starts. -/
def crawl_domain (cfg : CrawlConfig) (w : CrawlWorld) (delay : Rat)
    (fuel : Nat) : Except PyErr CrawlState :=
  match pyDiv 1 delay with
  | Except.error e => Except.error e
  | Except.ok _ => Except.ok (crawlRunSimple cfg w fuel initState [(cfg.startUrl, 0)] 0)

/-- Entry point `crawl_domain_with_duplicate_check` (lines 487-622): the
throttler rate `1/delay` is computed before the loop starts. -/
def crawl_domain_with_duplicate_check (cfg : CrawlConfig) (w : CrawlWorld)
    (delay : Rat) (fuel : Nat) : Except PyErr CrawlState :=
  match pyDiv 1 delay with
  | Except.error e => Except.error e
  | Except.ok _ => Except.ok (crawlRunDup cfg w fuel initState [(cfg.startUrl, 0)] 0)


/-! Theorems for the frozen claims. -/

/-- C1 counterexample: normalization is not idempotent.  For a path ending in
three slashes, one trailing slash is stripped before the slash runs are
collapsed, so one normalization leaves a trailing slash that a second
normalization removes. -/
theorem normalize_idempotent_cex :
    normalize_url (normalize_url "https://example.com/a///") ≠
      normalize_url "https://example.com/a///" := by
  decide

/-! Helper lemmas for the amended idempotence claim (C1). -/

/-- Decoding `Char.ofNat` at a valid code point. -/
theorem charToNat_ofNat (n : Nat) (h : Nat.isValidChar n) :
    (Char.ofNat n).toNat = n := by
  unfold Char.ofNat
  rw [dif_pos h]
  rfl

/-- Lower-casing in the uppercase range. -/
theorem char_toLower_eq_pos (c : Char) (h : c.toNat ≥ 65 ∧ c.toNat ≤ 90) :
    c.toLower = Char.ofNat (c.toNat + 32) := by
  show (let n := c.toNat; if n ≥ 65 ∧ n ≤ 90 then Char.ofNat (n + 32) else c) = _
  simp only [if_pos h]

/-- Lower-casing outside the uppercase range. -/
theorem char_toLower_eq_neg (c : Char) (h : ¬(c.toNat ≥ 65 ∧ c.toNat ≤ 90)) :
    c.toLower = c := by
  show (let n := c.toNat; if n ≥ 65 ∧ n ≤ 90 then Char.ofNat (n + 32) else c) = c
  simp only [if_neg h]

/-- Code point of the lower-cased character. -/
theorem toNat_toLower (c : Char) :
    c.toLower.toNat =
      if c.toNat ≥ 65 ∧ c.toNat ≤ 90 then c.toNat + 32 else c.toNat := by
  by_cases h : c.toNat ≥ 65 ∧ c.toNat ≤ 90
  · rw [char_toLower_eq_pos c h, if_pos h, charToNat_ofNat _ (Or.inl (by omega))]
  · rw [char_toLower_eq_neg c h, if_neg h]

/-- Lower-casing a character is idempotent. -/
theorem toLower_toLower (c : Char) : c.toLower.toLower = c.toLower := by
  by_cases h : c.toNat ≥ 65 ∧ c.toNat ≤ 90
  · apply char_toLower_eq_neg
    rw [toNat_toLower, if_pos h]
    omega
  · rw [char_toLower_eq_neg c h, char_toLower_eq_neg c h]

/-- `lowerStr` is idempotent. -/
theorem lowerStr_lowerStr (l : List Char) : lowerStr (lowerStr l) = lowerStr l := by
  unfold lowerStr
  rw [List.map_map]
  exact List.map_congr_left fun c _ => toLower_toLower c

/-- Lower-casing preserves scheme characters. -/
theorem schemeChar_toLower (c : Char) (h : schemeChar c = true) :
    schemeChar c.toLower = true := by
  unfold schemeChar isAsciiAlpha isAsciiDigit at *
  rw [toNat_toLower]
  by_cases hu : c.toNat ≥ 65 ∧ c.toNat ≤ 90
  · rw [if_pos hu]
    simp
    omega
  · rw [if_neg hu]
    have : c.toLower = c := char_toLower_eq_neg c hu
    simpa [this] using h

/-- Lower-casing preserves ASCII letters. -/
theorem isAsciiAlpha_toLower (c : Char) (h : isAsciiAlpha c = true) :
    isAsciiAlpha c.toLower = true := by
  unfold isAsciiAlpha at *
  rw [toNat_toLower]
  by_cases hu : c.toNat ≥ 65 ∧ c.toNat ≤ 90
  · rw [if_pos hu]
    simp
    omega
  · rw [if_neg hu]
    exact h

/-- `splitFirst` misses an absent separator. -/
theorem splitFirst_of_not_mem {sep : Char} :
    ∀ {l : List Char}, sep ∉ l → splitFirst sep l = none := by
  intro l
  induction l with
  | nil => intro _; rfl
  | cons c t ih =>
    intro h
    have hc : ¬(c = sep) := fun hc => h (hc ▸ List.mem_cons_self c t)
    simp only [splitFirst, if_neg hc, ih (fun hm => h (List.mem_cons_of_mem c hm))]

/-- `splitFirst` recovers an append around the first separator. -/
theorem splitFirst_append (sep : Char) :
    ∀ (a : List Char) (b : List Char), sep ∉ a →
      splitFirst sep (a ++ sep :: b) = some (a, b) := by
  intro a
  induction a with
  | nil => intro b _; simp [splitFirst]
  | cons c t ih =>
    intro b h
    have hc : ¬(c = sep) := fun hc => h (hc ▸ List.mem_cons_self c t)
    rw [List.cons_append]
    simp only [splitFirst, if_neg hc,
      ih b (fun hm => h (List.mem_cons_of_mem c hm))]

/-- `noAdjSlash` under a cons. -/
theorem noAdjSlash_cons (c : Char) (x : List Char)
    (h1 : ∀ d, x.head? = some d → ¬(c = '/' ∧ d = '/'))
    (h2 : noAdjSlash x = true) : noAdjSlash (c :: x) = true := by
  cases x with
  | nil => rfl
  | cons d t =>
    have := h1 d rfl
    simp only [noAdjSlash, Bool.and_eq_true, Bool.not_eq_true']
    refine ⟨?_, h2⟩
    by_cases hc : c = '/'
    · by_cases hd : d = '/'
      · exact absurd ⟨hc, hd⟩ this
      · simp [hc, hd]
    · simp [hc]


/-- C5 counterexample: the claim that `Normalize("http://example.com:80/")`
equals `Normalize("https://example.com")` is false — the canonicalizer
lower-cases the scheme but never rewrites `http` to `https`, so the http
member of the stated equivalence class keeps its scheme. -/
theorem equiv_class_cex :
    normalize_url "http://example.com:80/" ≠ normalize_url "https://example.com" := by
  decide

/-- C5 amended: the trailing-slash, `www.`-prefix and tracking-parameter
variants all normalize to `Normalize("https://example.com")`, and the
`http...:80` variant normalizes to `Normalize("http://example.com")` (same
fingerprint up to the preserved scheme). -/
theorem equiv_class_amended :
    normalize_url "https://example.com/" = normalize_url "https://example.com" ∧
    normalize_url "https://www.example.com" = normalize_url "https://example.com" ∧
    normalize_url "https://example.com?utm_source=x" = normalize_url "https://example.com" ∧
    normalize_url "http://example.com:80/" = normalize_url "http://example.com" := by
  refine ⟨?_, ?_, ?_, ?_⟩ <;> decide

/-- C6 counterexample: HTTP 201 is a 2xx status, yet `_fetch_page` classifies
it as a retryable error (`raise ClientError`) regardless of content type —
only status 200 proceeds to parsing. -/
theorem status_2xx_cex :
    (200 ≤ 201 ∧ 201 < 300) ∧
    classify_response 201 "text/html".data = AttemptClass.retryError ∧
    classify_response 201 "application/json".data = AttemptClass.retryError := by
  decide

/-- C6 amended: a response proceeds to parsing exactly when the status is 200
and the lower-cased Content-Type contains `text/html`; a 200 without
`text/html` is a skip (not an error); a 2xx other than 200 is treated as a
retryable error. -/
theorem status_classification (status : Nat) (ctype : List Char) :
    (status = 200 → containsSub "text/html".data (lowerStr ctype) = true →
      classify_response status ctype = AttemptClass.proceedToParse) ∧
    (status = 200 → containsSub "text/html".data (lowerStr ctype) = false →
      classify_response status ctype = AttemptClass.skipNonHtml) ∧
    (200 ≤ status → status < 300 → status ≠ 200 →
      classify_response status ctype = AttemptClass.retryError) := by
  unfold classify_response
  refine ⟨?_, ?_, ?_⟩
  · intro h hc
    subst h
    simp [hc]
  · intro h hc
    subst h
    simp [hc]
  · intro h1 h2 h3
    rw [if_pos h3, if_neg]
    omega

/-- C6 witness: concrete instances of the three classifications. -/
theorem status_classification_witness :
    classify_response 200 "Text/HTML; charset=utf-8".data = AttemptClass.proceedToParse ∧
    classify_response 200 "application/json".data = AttemptClass.skipNonHtml ∧
    classify_response 204 "text/html".data = AttemptClass.retryError :=
  ⟨(status_classification 200 "Text/HTML; charset=utf-8".data).1 rfl (by decide),
   (status_classification 200 "application/json".data).2.1 rfl (by decide),
   (status_classification 204 "text/html".data).2.2 (by decide) (by decide) (by decide)⟩

/-- C10: both crawl entry points compute the throttler rate as `1/delay`
before the loop runs; with `delay = 0` this raises `ZeroDivisionError` before
any URL is fetched, and with any non-zero delay the run completes normally. -/
theorem zero_delay_division (cfg : CrawlConfig) (w : CrawlWorld) (delay : Rat)
    (fuel : Nat) (h : delay = 0) :
    crawl_domain cfg w delay fuel = Except.error PyErr.zeroDivision ∧
    crawl_domain_with_duplicate_check cfg w delay fuel = Except.error PyErr.zeroDivision ∧
    (∀ d2 : Rat, d2 ≠ 0 →
      (crawl_domain cfg w d2 fuel).isOk = true ∧
      (crawl_domain_with_duplicate_check cfg w d2 fuel).isOk = true) := by
  refine ⟨?_, ?_, ?_⟩
  · simp [crawl_domain, pyDiv, h]
  · simp [crawl_domain_with_duplicate_check, pyDiv, h]
  · intro d2 hd2
    constructor
    · simp [crawl_domain, pyDiv, hd2, Except.isOk, Except.toBool]
    · simp [crawl_domain_with_duplicate_check, pyDiv, hd2, Except.isOk, Except.toBool]

/-- C10 witness: a concrete config with `delay = 0` raises, with
`delay = 3/10` it returns. -/
theorem zero_delay_division_witness :
    crawl_domain ⟨"https://example.com".data, 3, 1000, 10, false⟩
      ⟨fun _ => true, fun _ => false, fun _ => [], fun _ => none⟩ 0 5 =
      Except.error PyErr.zeroDivision ∧
    (crawl_domain ⟨"https://example.com".data, 3, 1000, 10, false⟩
      ⟨fun _ => true, fun _ => false, fun _ => [], fun _ => none⟩ (3/10) 5).isOk = true := by
  have h := zero_delay_division ⟨"https://example.com".data, 3, 1000, 10, false⟩
    ⟨fun _ => true, fun _ => false, fun _ => [], fun _ => none⟩ 0 5 rfl
  exact ⟨h.1, (h.2.2 (3/10) (by norm_num)).1⟩

/-- C9: a page whose extracted content cleans to the empty string bypasses the
content-hash set entirely — the parse stage returns a record and leaves the
hash set unchanged, so no such page is ever dropped as a content duplicate. -/
theorem empty_content_bypass (uj : List Char → List Char → List Char) (now : Rat)
    (hashes : List (List Char)) (url : List Char) (s : SoupData)
    (h : cleanContent s.rawContent = []) :
    (parse_html uj now hashes url s).1.isSome = true ∧
    (parse_html uj now hashes url s).2 = hashes := by
  unfold parse_html
  simp [h]

/-- C9 witness: a whitespace-only extracted text yields a stored record and an
untouched hash set. -/
theorem empty_content_bypass_witness :
    (parse_html (fun _ h => h) 0 [] "https://a.com/x".data
      ⟨none, [], "  ".data, [], []⟩).1.isSome = true ∧
    (parse_html (fun _ h => h) 0 [] "https://a.com/x".data
      ⟨none, [], "  ".data, [], []⟩).2 = [] :=
  empty_content_bypass (fun _ h => h) 0 [] "https://a.com/x".data
    ⟨none, [], "  ".data, [], []⟩ (by decide)


/-- Helper for C4: with every attempt answered by HTTP 503, the fetch loop
consumes all its fuel, sleeping `backoff ^ a` after failed attempt `a`
whenever another attempt remains. -/
theorem fetchGo_retry_exhaustion (maxRetries : Nat) (backoff : Rat)
    (att : Nat → AttemptResult)
    (h : ∀ i, ∃ ct pr, att i = AttemptResult.response 503 ct pr) :
    ∀ fuel attempt, attempt + fuel = maxRetries →
      fetchGo maxRetries backoff att attempt fuel =
        (none, fuel, (List.range' (attempt + 1) (fuel - 1)).map fun i => backoff ^ i) := by
  intro fuel
  induction fuel with
  | zero => intro attempt _; simp [fetchGo]
  | succ f ih =>
    intro attempt hsum
    obtain ⟨ct, pr, hatt⟩ := h attempt
    have hcls : classify_response 503 ct = AttemptClass.retryError := by
      norm_num [classify_response]
    rw [fetchGo, hatt]
    dsimp only
    rw [hcls]
    dsimp only
    have hr := ih (attempt + 1) (by omega)
    rw [hr]
    cases f with
    | zero =>
      have : ¬ attempt + 1 < maxRetries := by omega
      simp [this]
    | succ f2 =>
      have hlt : attempt + 1 < maxRetries := by omega
      simp only [if_pos hlt, Nat.succ_sub_one, List.range'_succ, List.map_cons]
      simp

/-- C4: for a URL whose every GET attempt returns HTTP 503, `_fetch_page`
issues exactly `maxRetries` attempts, waits `backoffFactor ^ attempt` seconds
after each failed attempt that leaves retries remaining (attempts
`1 … maxRetries-1`), then returns `None`; and a failed fetch contributes
nothing back to the frontier — folding a `None` result leaves the state,
queue and page count unchanged, so the URL is never re-queued. -/
theorem fetch_503_retry_exhaustion (maxRetries : Nat) (backoff : Rat)
    (att : Nat → AttemptResult)
    (h : ∀ i, ∃ ct pr, att i = AttemptResult.response 503 ct pr) :
    fetch_page maxRetries backoff att =
      (none, maxRetries, (List.range' 1 (maxRetries - 1)).map fun i => backoff ^ i) ∧
    ∀ cfg st q count, process_result cfg st q count none = (st, q, count) := by
  constructor
  · unfold fetch_page
    exact fetchGo_retry_exhaustion maxRetries backoff att h maxRetries 0 (by omega)
  · intro cfg st q count; rfl

/-- C4 witness: three attempts with factor `3/2` sleep `(3/2)^1` and
`(3/2)^2` seconds and end with `None`. -/
theorem fetch_503_retry_exhaustion_witness :
    fetch_page 3 (3/2) (fun _ => AttemptResult.response 503 "text/html".data none) =
      (none, 3, [(3/2 : Rat) ^ 1, (3/2 : Rat) ^ 2]) := by
  have h := (fetch_503_retry_exhaustion 3 (3/2)
    (fun _ => AttemptResult.response 503 "text/html".data none)
    (fun _ => ⟨"text/html".data, none, rfl⟩)).1
  rw [h]
  simp [List.range']

/-- C7: when the robots.txt fetch for a host raises or returns non-200, the
first `Allowed` check fail-opens (returns true), caches the allow-all
sentinel under the host robots URL, and performs the run's only robots fetch;
with the updated cache every later check for that base allows any URL via a
pure cache lookup with no fetch. -/
theorem robots_fail_open (w : RobotsWorld) (cache : RobotsCache)
    (ua base ru : List Char) (hru : robotsUrlOf base = some ru)
    (hmiss : cache.lookup ru = none)
    (hbad : w.resp ru = none ∨
      ∃ status text, w.resp ru = some (status, text) ∧ status ≠ 200) :
    ∀ url url2,
      is_allowed_by_robots w cache ua url base = (true, (ru, none) :: cache, true) ∧
      is_allowed_by_robots w ((ru, none) :: cache) ua url2 base =
        (true, (ru, none) :: cache, false) := by
  intro url url2
  constructor
  · rcases hbad with hb | ⟨status, text, hb, hne⟩
    · simp [is_allowed_by_robots, get_robot_rules, hru, hmiss, hb]
    · simp [is_allowed_by_robots, get_robot_rules, hru, hmiss, hb, hne]
  · simp [is_allowed_by_robots, get_robot_rules, hru, List.lookup]

/-- C7 witness: a 404 robots.txt for `https://example.com` allows a concrete
URL and caches the sentinel. -/
theorem robots_fail_open_witness :
    is_allowed_by_robots
      ⟨fun _ => some (404, []), fun _ _ _ => true⟩ [] "UA".data
      "https://example.com/page".data "https://example.com".data =
      (true, [("https://example.com/robots.txt".data, none)], true) :=
  (robots_fail_open ⟨fun _ => some (404, []), fun _ _ _ => true⟩ []
    "UA".data "https://example.com".data "https://example.com/robots.txt".data
    (by decide) rfl (Or.inr ⟨404, [], rfl, by decide⟩)
    "https://example.com/page".data []).1


/-- C2 counterexample: two distinct URLs whose extracted contents are
byte-identical after whitespace normalization and lower-casing (both
normalize to the empty string) each yield a page record — the second one is
not dropped, because zero-length extracted content bypasses the content-hash
check. -/
theorem content_dedup_cex :
    let uj := fun _ h => (h : List Char)
    let s1 : SoupData := ⟨none, [], [], [], []⟩
    let s2 : SoupData := ⟨none, [], " ".data, [], []⟩
    let r1 := parse_html uj 0 [] "https://example.com/a".data s1
    let r2 := parse_html uj 0 r1.2 "https://example.com/b".data s2
    "https://example.com/a".data ≠ "https://example.com/b".data ∧
    collapseWs (stripWs (lowerStr (cleanContent s1.rawContent))) =
      collapseWs (stripWs (lowerStr (cleanContent s2.rawContent))) ∧
    r1.1.isSome = true ∧ r2.1.isSome = true := by
  decide

/-- C2 amended: provided both pages have non-empty extracted content, two
distinct URLs serving content byte-identical after whitespace normalization
and lower-casing yield only one record — the first parse returns a record and
records the content hash, the second parse returns `None` with the hash set
unchanged, and a `None` result adds nothing to `newPages`, the queue or the
page count (no error state exists for it). -/
theorem content_dedup_nonempty (uj : List Char → List Char → List Char)
    (now1 now2 : Rat) (hashes : List (List Char)) (url1 url2 : List Char)
    (s1 s2 : SoupData)
    (hurl : url1 ≠ url2)
    (h1 : cleanContent s1.rawContent ≠ [])
    (h2 : cleanContent s2.rawContent ≠ [])
    (heq : collapseWs (stripWs (lowerStr (cleanContent s2.rawContent))) =
      collapseWs (stripWs (lowerStr (cleanContent s1.rawContent))))
    (hfresh : hashes.contains (compute_content_hash (cleanContent s1.rawContent)) = false) :
    (parse_html uj now1 hashes url1 s1).1.isSome = true ∧
    (parse_html uj now1 hashes url1 s1).2 =
      compute_content_hash (cleanContent s1.rawContent) :: hashes ∧
    parse_html uj now2 (compute_content_hash (cleanContent s1.rawContent) :: hashes)
      url2 s2 = (none, compute_content_hash (cleanContent s1.rawContent) :: hashes) ∧
    (∀ cfg st q count, process_result cfg st q count none = (st, q, count)) := by
  have hch : compute_content_hash (cleanContent s2.rawContent) =
      compute_content_hash (cleanContent s1.rawContent) := by
    unfold compute_content_hash
    rw [heq]
  have hmem : compute_content_hash (cleanContent s1.rawContent) ∉ hashes := by
    simpa using hfresh
  have hd1 : is_duplicate_content hashes (cleanContent s1.rawContent) =
      (false, compute_content_hash (cleanContent s1.rawContent) :: hashes) := by
    simp [is_duplicate_content, hmem]
  have hd2 : is_duplicate_content
      (compute_content_hash (cleanContent s1.rawContent) :: hashes)
      (cleanContent s2.rawContent) =
      (true, compute_content_hash (cleanContent s1.rawContent) :: hashes) := by
    simp [is_duplicate_content, hch]
  refine ⟨?_, ?_, ?_, fun cfg st q count => rfl⟩
  · simp [parse_html, h1, hd1]
  · simp [parse_html, h1, hd1]
  · simp [parse_html, h2, hd2]

/-- C2 witness: `"Hello  World"` and `"hello world"` on distinct URLs — the
first is stored, the second parse returns `None`. -/
theorem content_dedup_nonempty_witness :
    (parse_html (fun _ h => h) 0 [] "https://example.com/a".data
      ⟨none, [], "Hello  World".data, [], []⟩).1.isSome = true ∧
    parse_html (fun _ h => h) 0
      (compute_content_hash (cleanContent "Hello  World".data) :: [])
      "https://example.com/b".data ⟨none, [], "hello world".data, [], []⟩ =
      (none, compute_content_hash (cleanContent "Hello  World".data) :: []) := by
  have h := content_dedup_nonempty (fun _ h => h) 0 0 []
    "https://example.com/a".data "https://example.com/b".data
    ⟨none, [], "Hello  World".data, [], []⟩ ⟨none, [], "hello world".data, [], []⟩
    (by decide) (by decide) (by decide) (by decide) (by decide)
  exact ⟨h.1, h.2.2.1⟩


/-- Helper: a run over an empty frontier changes nothing. -/
theorem crawlRunDup_nil (cfg : CrawlConfig) (w : CrawlWorld) :
    ∀ fuel st count, crawlRunDup cfg w fuel st [] count = st := by
  intro fuel st count
  cases fuel with
  | zero => rfl
  | succ f => simp [crawlRunDup]

/-- C3: when the storage collaborator reports the seed URL as already known,
`process_url` admits the seed, does not fetch it (the fetch log stays empty),
retrieves the collaborator documents into `existingDocuments`, and the whole
crawl run over the seed frontier ends with no fetch performed and exactly
those documents. -/
theorem existing_url_short_circuit (cfg : CrawlConfig) (w : CrawlWorld) (fuel : Nat)
    (hstore : cfg.hasStore = true)
    (hexists : w.storeExists cfg.startUrl = true)
    (hvalid : is_valid_url cfg.startUrl cfg.startUrl = true)
    (hallowed : w.allowed cfg.startUrl = true)
    (hmc : 1 ≤ cfg.maxConcurrent) (hmp : 1 ≤ cfg.maxPages) :
    (process_url cfg w initState cfg.startUrl 0).1 = none ∧
    (process_url cfg w initState cfg.startUrl 0).2.fetchLog = [] ∧
    (process_url cfg w initState cfg.startUrl 0).2.existingDocs =
      w.storeDocs cfg.startUrl ∧
    (crawlRunDup cfg w (fuel + 1) initState [(cfg.startUrl, 0)] 0).fetchLog = [] ∧
    (crawlRunDup cfg w (fuel + 1) initState [(cfg.startUrl, 0)] 0).existingDocs =
      w.storeDocs cfg.startUrl := by
  have hsv : should_visit w.allowed [] cfg.startUrl 0 cfg.maxDepth
      cfg.startUrl = (true, some (normalizeUrlL cfg.startUrl)) := by
    simp [should_visit, hvalid, hallowed]
  have hpu : process_url cfg w initState cfg.startUrl 0 =
      (none, ⟨[normalizeUrlL cfg.startUrl], [], w.storeDocs cfg.startUrl, []⟩) := by
    simp [process_url, initState, hsv, check_existing_url, hstore, hexists]
  have hstep : crawlStepDup cfg w initState [(cfg.startUrl, 0)] 0 =
      (⟨[normalizeUrlL cfg.startUrl], [], w.storeDocs cfg.startUrl, []⟩, [], 0) := by
    have hbs : 1 ≤ min cfg.maxConcurrent (cfg.maxPages - 0) := by omega
    have h1 : List.take (min cfg.maxConcurrent (cfg.maxPages - 0))
        [(cfg.startUrl, 0)] = [(cfg.startUrl, 0)] :=
      List.take_of_length_le (by simpa using hbs)
    have h2 : List.drop (min cfg.maxConcurrent (cfg.maxPages - 0))
        ([(cfg.startUrl, 0)] : List (List Char × Nat)) = [] :=
      List.drop_eq_nil_of_le (by simpa using hbs)
    unfold crawlStepDup
    simp only [h1, h2]
    simp [runBatchStep, foldResultStep, hpu, process_result]
  refine ⟨by rw [hpu], by rw [hpu], by rw [hpu], ?_, ?_⟩
  · rw [crawlRunDup]
    have hne : ¬((([(cfg.startUrl, 0)] : List (List Char × Nat)) = []) ∨ 0 ≥ cfg.maxPages) := by
      simp
      omega
    rw [if_neg hne, hstep, crawlRunDup_nil]
  · rw [crawlRunDup]
    have hne : ¬((([(cfg.startUrl, 0)] : List (List Char × Nat)) = []) ∨ 0 ≥ cfg.maxPages) := by
      simp
      omega
    rw [if_neg hne, hstep, crawlRunDup_nil]

/-- C3 witness: a concrete run whose storage already holds the seed. -/
theorem existing_url_short_circuit_witness :
    (crawlRunDup ⟨"https://example.com".data, 3, 1000, 10, true⟩
      ⟨fun _ => true, fun _ => true, fun _ => ["existing-doc".data], fun _ => none⟩
      4 initState [("https://example.com".data, 0)] 0).fetchLog = [] ∧
    (crawlRunDup ⟨"https://example.com".data, 3, 1000, 10, true⟩
      ⟨fun _ => true, fun _ => true, fun _ => ["existing-doc".data], fun _ => none⟩
      4 initState [("https://example.com".data, 0)] 0).existingDocs =
      ["existing-doc".data] := by
  have h := existing_url_short_circuit ⟨"https://example.com".data, 3, 1000, 10, true⟩
    ⟨fun _ => true, fun _ => true, fun _ => ["existing-doc".data], fun _ => none⟩
    3 rfl rfl (by decide) rfl (by decide) (by decide)
  exact ⟨h.2.2.2.1, h.2.2.2.2⟩

/-- Helper: a passed admission check implies the entry depth is within the
bound (the first rejection rule of `_should_visit`). -/
theorem should_visit_depth_le (allowed : List Char → Bool)
    (visited : List (List Char)) (url : List Char) (depth maxDepth : Nat)
    (base : List Char)
    (h : (should_visit allowed visited url depth maxDepth base).1 = true) :
    depth ≤ maxDepth := by
  by_contra hgt
  unfold should_visit at h
  rw [if_pos (by omega)] at h
  simp at h

/-- Helper: fetch-log entries added by `process_url` carry an admitted depth. -/
theorem process_url_fetchLog (cfg : CrawlConfig) (w : CrawlWorld)
    (st : CrawlState) (url : List Char) (depth : Nat) :
    ∀ e ∈ (process_url cfg w st url depth).2.fetchLog,
      e ∈ st.fetchLog ∨ e.2 ≤ cfg.maxDepth := by
  intro e he
  unfold process_url at he
  rcases hsv : should_visit w.allowed st.visited url depth cfg.maxDepth cfg.startUrl
    with ⟨b, fp⟩
  rw [hsv] at he
  cases b with
  | false =>
    simp at he
    exact Or.inl he
  | true =>
    have hd : depth ≤ cfg.maxDepth :=
      should_visit_depth_le _ _ _ _ _ _ (by rw [hsv])
    by_cases hex : check_existing_url cfg.hasStore w url = true
    · rcases fp with _ | n <;> simp [hex] at he <;> exact Or.inl he
    · rcases fp with _ | n <;> rcases hf : w.fetch url with _ | page <;>
        simp [hex, hf] at he <;>
        (rcases he with he | he
         · exact Or.inl he
         · exact Or.inr (by rw [he]; exact hd))


/-- Helper: the batch fan-out only adds admitted-depth fetch-log entries. -/
theorem runBatch_fetchLog (cfg : CrawlConfig) (w : CrawlWorld) :
    ∀ (batch : List (List Char × Nat))
      (acc : List (Option (PageRecord × List Char × Nat)) × CrawlState) e,
      e ∈ (batch.foldl (runBatchStep cfg w) acc).2.fetchLog →
      e ∈ acc.2.fetchLog ∨ e.2 ≤ cfg.maxDepth := by
  intro batch
  induction batch with
  | nil => intro acc e he; exact Or.inl he
  | cons hd tl ih =>
    intro acc e he
    rw [List.foldl_cons] at he
    rcases ih _ e he with h | h
    · unfold runBatchStep at h
      rcases process_url_fetchLog cfg w acc.2 hd.1 hd.2 e h with h2 | h2
      · exact Or.inl h2
      · exact Or.inr h2
    · exact Or.inr h

/-- Helper: folding a result never touches the fetch log. -/
theorem process_result_fetchLog (cfg : CrawlConfig) (st : CrawlState)
    (q : List (List Char × Nat)) (count : Nat)
    (r : Option (PageRecord × List Char × Nat)) :
    (process_result cfg st q count r).1.fetchLog = st.fetchLog := by
  rcases r with _ | ⟨page, url, depth⟩
  · rfl
  · unfold process_result
    by_cases h : depth < cfg.maxDepth <;> simp [h]

/-- Helper: the result loop never touches the fetch log. -/
theorem foldResults_fetchLog (cfg : CrawlConfig) :
    ∀ (results : List (Option (PageRecord × List Char × Nat)))
      (acc : CrawlState × List (List Char × Nat) × Nat),
      ((results.foldl (foldResultStep cfg) acc).1).fetchLog = acc.1.fetchLog := by
  intro results
  induction results with
  | nil => intro acc; rfl
  | cons hd tl ih =>
    intro acc
    rw [List.foldl_cons, ih]
    exact process_result_fetchLog cfg acc.1 acc.2.1 acc.2.2 hd

/-- Helper: one scheduling tick only adds admitted-depth fetch-log entries. -/
theorem crawlStepDup_fetchLog (cfg : CrawlConfig) (w : CrawlWorld)
    (st : CrawlState) (q : List (List Char × Nat)) (count : Nat) :
    ∀ e ∈ (crawlStepDup cfg w st q count).1.fetchLog,
      e ∈ st.fetchLog ∨ e.2 ≤ cfg.maxDepth := by
  intro e he
  simp only [crawlStepDup, foldResults_fetchLog] at he
  exact runBatch_fetchLog cfg w _ _ e he

/-- Helper: fetch-log entries over a whole run are inherited or admitted. -/
theorem crawlRunDup_fetchLog (cfg : CrawlConfig) (w : CrawlWorld) :
    ∀ fuel st q count e, e ∈ (crawlRunDup cfg w fuel st q count).fetchLog →
      e ∈ st.fetchLog ∨ e.2 ≤ cfg.maxDepth := by
  intro fuel
  induction fuel with
  | zero => intro st q count e he; exact Or.inl he
  | succ f ih =>
    intro st q count e he
    rw [crawlRunDup] at he
    by_cases hc : ((q = []) ∨ count ≥ cfg.maxPages)
    · rw [if_pos hc] at he
      exact Or.inl he
    · rw [if_neg hc] at he
      rcases ih _ _ _ e he with h | h
      · exact crawlStepDup_fetchLog cfg w st q count e h
      · exact Or.inr h

/-- C8: over any run of the duplicate-checking crawl loop starting from the
cleared state, every fetch that happens is for an entry with
`depth ≤ maxDepth` (no entry with `depth > maxDepth` is ever fetched); and a
page fetched exactly at `maxDepth` contributes its record but enqueues none
of its links. -/
theorem depth_bound (cfg : CrawlConfig) (w : CrawlWorld) :
    (∀ fuel q count e,
      e ∈ (crawlRunDup cfg w fuel initState q count).fetchLog →
        e.2 ≤ cfg.maxDepth) ∧
    (∀ st q count page url,
      process_result cfg st q count (some (page, url, cfg.maxDepth)) =
        ({ st with newPages := st.newPages ++ [page] }, q, count + 1)) := by
  constructor
  · intro fuel q count e he
    rcases crawlRunDup_fetchLog cfg w fuel initState q count e he with h | h
    · simp [initState] at h
    · exact h
  · intro st q count page url
    simp [process_result]

/-- C8 witness: a concrete one-tick run fetches the seed at depth 0 within
`maxDepth = 2`, and folding a depth-2 result enqueues nothing. -/
theorem depth_bound_witness :
    (("https://example.com".data, 0) : List Char × Nat).2 ≤ 2 ∧
    process_result ⟨"https://example.com".data, 2, 10, 5, false⟩
      ⟨[], [], [], []⟩ [] 0 (some (⟨"u".data, [], [], [], 0, []⟩, "u".data, 2)) =
      (⟨[], [⟨"u".data, [], [], [], 0, []⟩], [], []⟩, [], 1) := by
  have h := depth_bound ⟨"https://example.com".data, 2, 10, 5, false⟩
    ⟨fun _ => true, fun _ => false, fun _ => [], fun _ => none⟩
  constructor
  · exact h.1 1 [("https://example.com".data, 0)] 0
      ("https://example.com".data, 0) (by decide)
  · exact h.2 ⟨[], [], [], []⟩ [] 0 ⟨"u".data, [], [], [], 0, []⟩ "u".data


/-- The head survives slash collapsing. -/
theorem collapseSlashes_head? : ∀ l : List Char, (collapseSlashes l).head? = l.head? := by
  intro l
  induction l with
  | nil => rfl
  | cons c t ih =>
    cases t with
    | nil => rfl
    | cons d t2 =>
      by_cases h : c = '/' ∧ d = '/'
      · have he : collapseSlashes (c :: d :: t2) = collapseSlashes (d :: t2) := by
          simp [collapseSlashes, h]
        rw [he, ih]
        simp [h.1, h.2]
      · have he : collapseSlashes (c :: d :: t2) = c :: collapseSlashes (d :: t2) := by
          simp [collapseSlashes, h]
        rw [he]
        rfl

/-- Slash collapsing of a non-empty list is non-empty. -/
theorem collapseSlashes_ne_nil : ∀ l : List Char, l ≠ [] → collapseSlashes l ≠ [] := by
  intro l
  induction l with
  | nil => intro h; exact absurd rfl h
  | cons c t ih =>
    intro _
    cases t with
    | nil => simp [collapseSlashes]
    | cons d t2 =>
      by_cases h : c = '/' ∧ d = '/'
      · have he : collapseSlashes (c :: d :: t2) = collapseSlashes (d :: t2) := by
          simp [collapseSlashes, h]
        rw [he]
        exact ih (by simp)
      · have he : collapseSlashes (c :: d :: t2) = c :: collapseSlashes (d :: t2) := by
          simp [collapseSlashes, h]
        rw [he]
        simp

/-- The last element survives slash collapsing. -/
theorem collapseSlashes_getLast? :
    ∀ l : List Char, (collapseSlashes l).getLast? = l.getLast? := by
  intro l
  induction l with
  | nil => rfl
  | cons c t ih =>
    cases t with
    | nil => rfl
    | cons d t2 =>
      by_cases h : c = '/' ∧ d = '/'
      · have he : collapseSlashes (c :: d :: t2) = collapseSlashes (d :: t2) := by
          simp [collapseSlashes, h]
        rw [he, ih, List.getLast?_cons_cons]
      · have he : collapseSlashes (c :: d :: t2) = c :: collapseSlashes (d :: t2) := by
          simp [collapseSlashes, h]
        rw [he]
        rcases hx : collapseSlashes (d :: t2) with _ | ⟨e, x2⟩
        · exact absurd hx (collapseSlashes_ne_nil (d :: t2) (by simp))
        · rw [List.getLast?_cons_cons, ← hx, ih, List.getLast?_cons_cons]

/-- Slash collapsing yields no adjacent slashes. -/
theorem collapseSlashes_noAdj : ∀ l : List Char, noAdjSlash (collapseSlashes l) = true := by
  intro l
  induction l with
  | nil => rfl
  | cons c t ih =>
    cases t with
    | nil => rfl
    | cons d t2 =>
      by_cases h : c = '/' ∧ d = '/'
      · have he : collapseSlashes (c :: d :: t2) = collapseSlashes (d :: t2) := by
          simp [collapseSlashes, h]
        rw [he]
        exact ih
      · have he : collapseSlashes (c :: d :: t2) = c :: collapseSlashes (d :: t2) := by
          simp [collapseSlashes, h]
        rw [he]
        refine noAdjSlash_cons c _ ?_ ih
        intro e hee
        rw [collapseSlashes_head?] at hee
        simp at hee
        intro ⟨hc, hd⟩
        exact h ⟨hc, hee ▸ hd⟩

/-- Slash collapsing fixes an already collapsed list. -/
theorem collapseSlashes_eq_self :
    ∀ l : List Char, noAdjSlash l = true → collapseSlashes l = l := by
  intro l
  induction l with
  | nil => intro _; rfl
  | cons c t ih =>
    intro h
    cases t with
    | nil => rfl
    | cons d t2 =>
      simp only [noAdjSlash, Bool.and_eq_true] at h
      have hne : ¬(c = '/' ∧ d = '/') := by
        intro hcd
        simp [hcd.1, hcd.2] at h
      have he : collapseSlashes (c :: d :: t2) = c :: collapseSlashes (d :: t2) := by
        simp [collapseSlashes, hne]
      rw [he, ih h.2]

/-- Slash collapsing only keeps characters of the input. -/
theorem collapseSlashes_mem :
    ∀ (l : List Char) (c : Char), c ∈ collapseSlashes l → c ∈ l := by
  intro l
  induction l with
  | nil => intro c h; exact absurd h (by simp [collapseSlashes])
  | cons c t ih =>
    intro e he
    cases t with
    | nil => simpa [collapseSlashes] using he
    | cons d t2 =>
      by_cases h : c = '/' ∧ d = '/'
      · have heq : collapseSlashes (c :: d :: t2) = collapseSlashes (d :: t2) := by
          simp [collapseSlashes, h]
        rw [heq] at he
        exact List.mem_cons_of_mem c (ih e he)
      · have heq : collapseSlashes (c :: d :: t2) = c :: collapseSlashes (d :: t2) := by
          simp [collapseSlashes, h]
        rw [heq] at he
        rcases List.mem_cons.mp he with he | he
        · exact he ▸ List.mem_cons_self c _
        · exact List.mem_cons_of_mem c (ih e he)

/-- The tokenizer on a percent-free string yields only literals. -/
theorem unquoteTokensF_no_pct :
    ∀ (l : List Char) (fuel : Nat), l.length ≤ fuel → '%' ∉ l →
      unquoteTokensF fuel l = l.map Sum.inl := by
  intro l
  induction l with
  | nil =>
    intro fuel _ _
    cases fuel <;> rfl
  | cons c t ih =>
    intro fuel hf h
    cases fuel with
    | zero => simp at hf
    | succ f =>
      have hc : ¬(c = '%') := fun hc => h (hc ▸ List.mem_cons_self _ _)
      simp only [unquoteTokensF, if_neg hc, List.map_cons]
      rw [ih f (by simpa using hf) (fun hm => h (List.mem_cons_of_mem c hm))]

/-- Reassembling pure literals is the identity. -/
theorem unquoteGo_map_inl : ∀ l : List Char, unquoteGo [] (l.map Sum.inl) = l := by
  intro l
  induction l with
  | nil => rfl
  | cons c t ih =>
    simp only [List.map_cons, unquoteGo, ih]
    rfl

/-- `unquote` is the identity on percent-free strings. -/
theorem unquoteM_no_pct (l : List Char) (h : '%' ∉ l) : unquoteM l = l := by
  unfold unquoteM unquoteTokens
  rw [unquoteTokensF_no_pct l l.length le_rfl h, unquoteGo_map_inl]


/-- Characterization of a successful `splitFirst`. -/
theorem splitFirst_eq {sep : Char} :
    ∀ {l a b : List Char}, splitFirst sep l = some (a, b) →
      l = a ++ sep :: b ∧ sep ∉ a := by
  intro l
  induction l with
  | nil => intro a b h; simp [splitFirst] at h
  | cons c t ih =>
    intro a b h
    by_cases hc : c = sep
    · simp only [splitFirst, if_pos hc, Option.some.injEq, Prod.mk.injEq] at h
      subst hc
      rw [← h.1, ← h.2]
      exact ⟨rfl, by simp⟩
    · simp only [splitFirst, if_neg hc] at h
      rcases hs : splitFirst sep t with _ | ⟨a2, b2⟩
      · rw [hs] at h; simp at h
      · rw [hs] at h
        simp only [Option.some.injEq, Prod.mk.injEq] at h
        obtain ⟨he, hn⟩ := ih hs
        rw [← h.1, ← h.2]
        constructor
        · rw [List.cons_append, ← he]
        · intro hm
          rcases List.mem_cons.mp hm with hm | hm
          · exact hc hm.symm
          · exact hn hm


/-- A failing `splitLastSlash` means a slash-free list. -/
theorem splitLastSlash_none :
    ∀ {l : List Char}, splitLastSlash l = none → '/' ∉ l := by
  intro l
  induction l with
  | nil => intro _; simp
  | cons c t ih =>
    intro h
    simp only [splitLastSlash] at h
    rcases hs : splitLastSlash t with _ | ⟨a, b⟩
    · rw [hs] at h
      by_cases hc : c = '/'
      · rw [if_pos hc] at h; simp at h
      · intro hm
        rcases List.mem_cons.mp hm with hm | hm
        · exact hc hm.symm
        · exact ih hs hm
    · rw [hs] at h; simp at h

/-- Characterization of a successful `splitLastSlash`. -/
theorem splitLastSlash_eq :
    ∀ {l a b : List Char}, splitLastSlash l = some (a, b) →
      l = a ++ '/' :: b ∧ '/' ∉ b := by
  intro l
  induction l with
  | nil => intro a b h; simp [splitLastSlash] at h
  | cons c t ih =>
    intro a b h
    simp only [splitLastSlash] at h
    rcases hs : splitLastSlash t with _ | ⟨a2, b2⟩
    · rw [hs] at h
      by_cases hc : c = '/'
      · rw [if_pos hc] at h
        simp only [Option.some.injEq, Prod.mk.injEq] at h
        rw [← h.1, ← h.2]
        exact ⟨by rw [hc]; rfl, splitLastSlash_none hs⟩
      · rw [if_neg hc] at h; simp at h
    · rw [hs] at h
      simp only [Option.some.injEq, Prod.mk.injEq] at h
      obtain ⟨he, hn⟩ := ih hs
      rw [← h.1, ← h.2]
      exact ⟨by rw [List.cons_append, ← he], hn⟩

/-- `_splitparams` on a semicolon-free path is trivial. -/
theorem splitParams_no_semi (p0 : List Char) (h : ';' ∉ p0) :
    splitParams p0 = (p0, []) := by
  unfold splitParams
  rcases hs : splitLastSlash p0 with _ | ⟨a, seg⟩
  · dsimp only
    rw [splitFirst_of_not_mem h]
  · dsimp only
    obtain ⟨heq, _⟩ := splitLastSlash_eq hs
    have hseg : ';' ∉ seg := fun hm =>
      h (heq ▸ List.mem_append_right _ (List.mem_cons_of_mem _ hm))
    rw [splitFirst_of_not_mem hseg]

/-- Both `_splitparams` outputs draw their characters from the input. -/
theorem splitParams_mem (p0 : List Char) :
    (∀ c ∈ (splitParams p0).1, c ∈ p0) ∧ ∀ c ∈ (splitParams p0).2, c ∈ p0 := by
  unfold splitParams
  rcases hs : splitLastSlash p0 with _ | ⟨a, seg⟩
  all_goals dsimp only
  · rcases hf : splitFirst ';' p0 with _ | ⟨x, y⟩
    all_goals dsimp only
    · exact ⟨fun c hc => hc, fun c hc => by simp at hc⟩
    · obtain ⟨heq, _⟩ := splitFirst_eq hf
      constructor
      · intro c hc
        rw [heq]
        exact List.mem_append_left _ hc
      · intro c hc
        rw [heq]
        exact List.mem_append_right _ (List.mem_cons_of_mem _ hc)
  · obtain ⟨heq, _⟩ := splitLastSlash_eq hs
    rcases hf : splitFirst ';' seg with _ | ⟨s1, s2⟩
    all_goals dsimp only
    · refine ⟨fun c hc => hc, fun c hc => by simp at hc⟩
    · obtain ⟨heq2, _⟩ := splitFirst_eq hf
      constructor
      · intro c hc
        rw [heq, heq2]
        rcases List.mem_append.mp hc with hc | hc
        · exact List.mem_append_left _ hc
        · rcases List.mem_cons.mp hc with hc | hc
          · exact hc ▸ List.mem_append_right _ (List.mem_cons_self _ _)
          · exact List.mem_append_right _
              (List.mem_cons_of_mem _ (List.mem_append_left _ hc))
      · intro c hc
        rw [heq, heq2]
        exact List.mem_append_right _ (List.mem_cons_of_mem _
          (List.mem_append_right _ (List.mem_cons_of_mem _ hc)))


/-- The head of a `dropWhile` result fails the predicate. -/
theorem head?_dropWhile_false (p : Char → Bool) :
    ∀ (l : List Char) (c : Char), (l.dropWhile p).head? = some c → p c = false := by
  intro l
  induction l with
  | nil => intro c h; simp at h
  | cons a t ih =>
    intro c h
    rw [List.dropWhile_cons] at h
    by_cases ha : p a = true
    · rw [if_pos ha] at h
      exact ih c h
    · rw [if_neg ha] at h
      simp only [List.head?_cons, Option.some.injEq] at h
      rw [← h]
      exact Bool.not_eq_true _ ▸ by simpa using ha

/-- `removeUnsafe` output contains no unsafe characters. -/
theorem removeUnsafe_clean {c : Char} {l : List Char} (h : c ∈ removeUnsafe l) :
    isUnsafeUrlChar c = false := by
  unfold removeUnsafe at h
  have := (List.mem_filter.mp h).2
  simpa using this

/-- Lower-casing cannot introduce an unsafe character. -/
theorem isUnsafeUrlChar_toLower {c : Char}
    (h : isUnsafeUrlChar c.toLower = true) : isUnsafeUrlChar c = true := by
  by_cases hu : c.toNat ≥ 65 ∧ c.toNat ≤ 90
  · exfalso
    have hv : c.toLower.toNat = c.toNat + 32 := by rw [toNat_toLower, if_pos hu]
    have h9 : c.toLower = '\t' ∨ c.toLower = '\x0d' ∨ c.toLower = '\n' := by
      unfold isUnsafeUrlChar at h
      rcases Bool.or_eq_true_iff.mp h with h | h
      · rcases Bool.or_eq_true_iff.mp h with h | h
        · exact Or.inl (by simpa using h)
        · exact Or.inr (Or.inl (by simpa using h))
      · exact Or.inr (Or.inr (by simpa using h))
    rcases h9 with h9 | h9 | h9 <;> rw [h9] at hv <;> simp at hv
  · rwa [char_toLower_eq_neg c hu] at h

/-- Lower-casing cannot introduce a netloc terminator. -/
theorem netlocStop_toLower {c : Char} (h : netlocStop c.toLower = true) :
    netlocStop c = true := by
  by_cases hu : c.toNat ≥ 65 ∧ c.toNat ≤ 90
  · exfalso
    have hv : c.toLower.toNat = c.toNat + 32 := by rw [toNat_toLower, if_pos hu]
    have h9 : c.toLower = '/' ∨ c.toLower = '?' ∨ c.toLower = '#' := by
      unfold netlocStop at h
      rcases Bool.or_eq_true_iff.mp h with h | h
      · rcases Bool.or_eq_true_iff.mp h with h | h
        · exact Or.inl (by simpa using h)
        · exact Or.inr (Or.inl (by simpa using h))
      · exact Or.inr (Or.inr (by simpa using h))
    rcases h9 with h9 | h9 | h9 <;> rw [h9] at hv <;> simp at hv <;> omega
  · rwa [char_toLower_eq_neg c hu] at h

/-- Characterization of `splitScheme`. -/
theorem splitScheme_eq (url : List Char) :
    splitScheme url = ([], url) ∨
    ∃ c pre rest, url = (c :: pre) ++ ':' :: rest ∧
      isAsciiAlpha c = true ∧ (c :: pre).all schemeChar = true ∧ ':' ∉ (c :: pre) ∧
      splitScheme url = (lowerStr (c :: pre), rest) := by
  unfold splitScheme
  rcases hf : splitFirst ':' url with _ | ⟨pre0, rest⟩
  · exact Or.inl rfl
  · rcases pre0 with _ | ⟨c, pre⟩
    · exact Or.inl rfl
    · dsimp only
      by_cases hv : (isAsciiAlpha c && (c :: pre).all schemeChar) = true
      · rw [if_pos hv]
        obtain ⟨heq, hnm⟩ := splitFirst_eq hf
        right
        simp only [Bool.and_eq_true] at hv
        exact ⟨c, pre, rest, heq, hv.1, hv.2, hnm, rfl⟩
      · rw [if_neg hv]
        exact Or.inl rfl

/-- Characterization of `splitNetloc`. -/
theorem splitNetloc_eq (rest1 : List Char) :
    (splitNetloc rest1 = none ∧ rest1.take 2 ≠ ['/', '/']) ∨
    ∃ t, rest1 = '/' :: '/' :: t ∧
      splitNetloc rest1 = some (t.takeWhile (fun c => !netlocStop c),
        t.dropWhile (fun c => !netlocStop c)) := by
  unfold splitNetloc
  by_cases h : rest1.take 2 = ['/', '/']
  · right
    rcases rest1 with _ | ⟨c1, rest⟩
    · simp at h
    rcases rest with _ | ⟨c2, t⟩
    · simp at h
    have hc : c1 = '/' ∧ c2 = '/' := by simpa using h
    refine ⟨t, by rw [hc.1, hc.2], ?_⟩
    rw [if_pos h]
    rfl
  · left
    exact ⟨if_neg h, h⟩


/-- A failing `splitFirst` means the separator is absent. -/
theorem splitFirst_none_not_mem {sep : Char} :
    ∀ {l : List Char}, splitFirst sep l = none → sep ∉ l := by
  intro l
  induction l with
  | nil => intro _; simp
  | cons c t ih =>
    intro h hm
    by_cases hc : c = sep
    · simp [splitFirst, hc] at h
    · simp only [splitFirst, if_neg hc] at h
      rcases hs : splitFirst sep t with _ | p
      · rcases List.mem_cons.mp hm with hm | hm
        · exact hc hm.symm
        · exact ih hs hm
      · rw [hs] at h
        simp at h

/-- Scheme characters are never the removed control characters. -/
theorem schemeChar_not_unsafe {c : Char} (h : schemeChar c = true) :
    isUnsafeUrlChar c = false := by
  by_contra hu
  simp only [Bool.not_eq_false] at hu
  unfold isUnsafeUrlChar at hu
  have h3 : c = '\t' ∨ c = '\x0d' ∨ c = '\n' := by
    rcases Bool.or_eq_true_iff.mp hu with h1 | h1
    · rcases Bool.or_eq_true_iff.mp h1 with h2 | h2
      · exact Or.inl (by simpa using h2)
      · exact Or.inr (Or.inl (by simpa using h2))
    · exact Or.inr (Or.inr (by simpa using h1))
  rcases h3 with h3 | h3 | h3 <;> subst h3 <;> exact absurd h (by decide)

/-- Characterization of `splitFragment`. -/
theorem splitFragment_eq (l : List Char) :
    (splitFragment l = (l, []) ∧ '#' ∉ l) ∨
    ∃ a b, l = a ++ '#' :: b ∧ '#' ∉ a ∧ splitFragment l = (a, b) := by
  unfold splitFragment
  rcases hf : splitFirst '#' l with _ | ⟨a, b⟩
  · exact Or.inl ⟨rfl, splitFirst_none_not_mem hf⟩
  · obtain ⟨he, hn⟩ := splitFirst_eq hf
    exact Or.inr ⟨a, b, he, hn, rfl⟩

/-- Characterization of `splitQuery`. -/
theorem splitQuery_eq (l : List Char) :
    (splitQuery l = (l, []) ∧ '?' ∉ l) ∨
    ∃ a b, l = a ++ '?' :: b ∧ '?' ∉ a ∧ splitQuery l = (a, b) := by
  unfold splitQuery
  rcases hf : splitFirst '?' l with _ | ⟨a, b⟩
  · exact Or.inl ⟨rfl, splitFirst_none_not_mem hf⟩
  · obtain ⟨he, hn⟩ := splitFirst_eq hf
    exact Or.inr ⟨a, b, he, hn, rfl⟩

/-- Facts about the netloc stage: the netloc has no stop characters, both
parts draw from the input, and a non-empty remainder starts with a stop
character unless no netloc was split. -/
theorem splitNetlocD_wf (rest1 : List Char) :
    (splitNetlocD rest1).1.all (fun c => !netlocStop c) = true ∧
    (∀ c, c ∈ (splitNetlocD rest1).1 → c ∈ rest1) ∧
    (∀ c, c ∈ (splitNetlocD rest1).2 → c ∈ rest1) ∧
    ((splitNetlocD rest1).1 ≠ [] →
      ∀ c, (splitNetlocD rest1).2.head? = some c → netlocStop c = true) := by
  unfold splitNetlocD
  rcases splitNetloc_eq rest1 with ⟨hn, _⟩ | ⟨t, ht, hn⟩
  · rw [hn]
    refine ⟨rfl, ?_, ?_, ?_⟩
    · intro c hc
      simp at hc
    · intro c hc
      exact hc
    · intro hne
      simp at hne
  · rw [hn]
    dsimp only
    refine ⟨?_, ?_, ?_, ?_⟩
    · rw [List.all_eq_true]
      intro c hc
      exact List.mem_takeWhile_imp (p := fun c => !netlocStop c) hc
    · intro c hc
      rw [ht]
      exact List.mem_cons_of_mem _ (List.mem_cons_of_mem _
        (List.takeWhile_subset _ hc))
    · intro c hc
      rw [ht]
      exact List.mem_cons_of_mem _ (List.mem_cons_of_mem _
        (List.dropWhile_subset _ hc))
    · intro _ c hc
      have := head?_dropWhile_false _ t c hc
      simpa using this

/-- Wellformedness of the components of a successful `urlsplit`. -/
theorem urlsplitM_wf {url s n p0 q fr : List Char}
    (h : urlsplitM url = some (s, n, p0, q, fr)) :
    lowerStr s = s ∧
    (s ≠ [] → s.all schemeChar = true ∧ ∃ c pre, s = c :: pre ∧ isAsciiAlpha c = true) ∧
    n.all (fun c => !netlocStop c) = true ∧
    '#' ∉ p0 ∧ '?' ∉ p0 ∧ '#' ∉ q ∧
    (n ≠ [] → p0 = [] ∨ p0.head? = some '/') ∧
    (∀ c, (c ∈ s ∨ c ∈ n ∨ c ∈ p0 ∨ c ∈ q) → isUnsafeUrlChar c = false) := by
  unfold urlsplitM at h
  by_cases hbr : (((splitNetlocD (splitScheme (removeUnsafe url)).2).1.contains '[' &&
      !(splitNetlocD (splitScheme (removeUnsafe url)).2).1.contains ']') ||
      ((splitNetlocD (splitScheme (removeUnsafe url)).2).1.contains ']' &&
      !(splitNetlocD (splitScheme (removeUnsafe url)).2).1.contains '[')) = true
  · rw [if_pos hbr] at h
    simp at h
  · rw [if_neg hbr] at h
    simp only [Option.some.injEq, Prod.mk.injEq] at h
    obtain ⟨hs, hn, hp, hq, hf⟩ := h
    obtain ⟨hnall, hnsub, hrsub, hrhead⟩ :=
      splitNetlocD_wf (splitScheme (removeUnsafe url)).2
    have hfrag := splitFragment_eq (splitNetlocD (splitScheme (removeUnsafe url)).2).2
    have hquer := splitQuery_eq (splitFragment
      (splitNetlocD (splitScheme (removeUnsafe url)).2).2).1
    have hschemeFacts := splitScheme_eq (removeUnsafe url)
    have hrest1sub : ∀ c, c ∈ (splitScheme (removeUnsafe url)).2 → c ∈ removeUnsafe url := by
      rcases hschemeFacts with hse | ⟨c0, pre, rest, heq, _, _, _, hse⟩
      · rw [hse]
        intro c hc
        exact hc
      · rw [hse]
        intro c hc
        rw [heq]
        exact List.mem_append_right _ (List.mem_cons_of_mem _ hc)
    have hp0sub : ∀ c, c ∈ p0 →
        c ∈ (splitFragment (splitNetlocD (splitScheme (removeUnsafe url)).2).2).1 := by
      intro c hc
      rw [← hp] at hc
      rcases hquer with ⟨hq2, _⟩ | ⟨a, b, he, _, hq2⟩
      · rw [hq2] at hc
        exact hc
      · rw [hq2] at hc
        rw [he]
        exact List.mem_append_left _ hc
    have hqsub : ∀ c, c ∈ q →
        c ∈ (splitFragment (splitNetlocD (splitScheme (removeUnsafe url)).2).2).1 := by
      intro c hc
      rw [← hq] at hc
      rcases hquer with ⟨hq2, _⟩ | ⟨a, b, he, _, hq2⟩
      · rw [hq2] at hc
        simp at hc
      · rw [hq2] at hc
        rw [he]
        exact List.mem_append_right _ (List.mem_cons_of_mem _ hc)
    have hfsub : ∀ c,
        c ∈ (splitFragment (splitNetlocD (splitScheme (removeUnsafe url)).2).2).1 →
        c ∈ (splitNetlocD (splitScheme (removeUnsafe url)).2).2 := by
      intro c hc
      rcases hfrag with ⟨hf2, _⟩ | ⟨a, b, he, _, hf2⟩
      · rw [hf2] at hc
        exact hc
      · rw [hf2] at hc
        rw [he]
        exact List.mem_append_left _ hc
    have hnofrag : '#' ∉ (splitFragment
        (splitNetlocD (splitScheme (removeUnsafe url)).2).2).1 := by
      rcases hfrag with ⟨hf2, hnm⟩ | ⟨a, b, he, hnm, hf2⟩
      · rw [hf2]
        exact hnm
      · rw [hf2]
        exact hnm
    have hsharp : '#' ∉ p0 := fun hm => hnofrag (hp0sub '#' hm)
    have hques : '?' ∉ p0 := by
      intro hm
      rcases hquer with ⟨hq2, hnm⟩ | ⟨a, b, he, hnm, hq2⟩
      · rw [← hp, hq2] at hm
        exact hnm hm
      · rw [← hp, hq2] at hm
        exact hnm hm
    refine ⟨?_, ?_, ?_, hsharp, hques, ?_, ?_, ?_⟩
    · rcases hschemeFacts with hse | ⟨c, pre, rest, _, _, _, _, hse⟩
      · rw [← hs, hse]
        rfl
      · rw [← hs, hse]
        exact lowerStr_lowerStr (c :: pre)
    · intro hne
      rcases hschemeFacts with hse | ⟨c, pre, rest, _, hal, hall, _, hse⟩
      · rw [← hs, hse] at hne
        exact absurd rfl hne
      · rw [← hs, hse]
        constructor
        · rw [List.all_eq_true]
          intro x hx
          unfold lowerStr at hx
          obtain ⟨y, hy, hxy⟩ := List.mem_map.mp hx
          rw [← hxy]
          exact schemeChar_toLower y (by
            rw [List.all_eq_true] at hall
            exact hall y hy)
        · exact ⟨c.toLower, lowerStr pre, rfl, isAsciiAlpha_toLower c hal⟩
    · rw [← hn]
      exact hnall
    · intro hm
      exact hnofrag (hqsub '#' hm)
    · intro hne
      rw [← hn] at hne
      by_cases hp0 : p0 = []
      · exact Or.inl hp0
      right
      rcases hp0l : p0 with _ | ⟨c0, p0t⟩
      · exact absurd hp0l hp0
      have hfp1 : (splitFragment
          (splitNetlocD (splitScheme (removeUnsafe url)).2).2).1.head? = some c0 := by
        rcases hquer with ⟨hq2, _⟩ | ⟨a, b, he, _, hq2⟩
        · rw [hq2] at hp
          dsimp only at hp
          rw [hp, hp0l]
          rfl
        · rw [hq2] at hp
          dsimp only at hp
          rw [he, hp, hp0l]
          rfl
      have hr2 : (splitNetlocD
          (splitScheme (removeUnsafe url)).2).2.head? = some c0 := by
        rcases hfrag with ⟨hf2, _⟩ | ⟨a, b, he, _, hf2⟩
        · rw [hf2] at hfp1
          exact hfp1
        · rw [hf2] at hfp1
          dsimp only at hfp1
          rw [he]
          rcases a with _ | ⟨a0, at0⟩
          · simp at hfp1
          · simpa using hfp1
      have hstop := hrhead hne c0 hr2
      have hc0p : c0 ∈ p0 := by
        rw [hp0l]
        exact List.mem_cons_self _ _
      unfold netlocStop at hstop
      have h3 : c0 = '/' ∨ c0 = '?' ∨ c0 = '#' := by
        rcases Bool.or_eq_true_iff.mp hstop with h1 | h1
        · rcases Bool.or_eq_true_iff.mp h1 with h2 | h2
          · exact Or.inl (by simpa using h2)
          · exact Or.inr (Or.inl (by simpa using h2))
        · exact Or.inr (Or.inr (by simpa using h1))
      rcases h3 with h3 | h3 | h3
      · rw [h3]
        rfl
      · exact absurd (h3 ▸ hc0p) hques
      · exact absurd (h3 ▸ hc0p) hsharp
    · intro c hc
      rcases hc with hc | hc | hc | hc
      · rcases hschemeFacts with hse | ⟨c1, pre, rest, heq, _, _, _, hse⟩
        · rw [← hs, hse] at hc
          simp at hc
        · rw [← hs, hse] at hc
          unfold lowerStr at hc
          obtain ⟨y, hy, hxy⟩ := List.mem_map.mp hc
          by_contra hu
          simp only [Bool.not_eq_false] at hu
          rw [← hxy] at hu
          have := isUnsafeUrlChar_toLower hu
          have hym : y ∈ removeUnsafe url := by
            rw [heq]
            exact List.mem_append_left _ hy
          rw [removeUnsafe_clean hym] at this
          exact Bool.false_ne_true this
      · rw [← hn] at hc
        exact removeUnsafe_clean (hrest1sub c (hnsub c hc))
      · exact removeUnsafe_clean (hrest1sub c (hrsub c (hfsub c (hp0sub c hc))))
      · exact removeUnsafe_clean (hrest1sub c (hrsub c (hfsub c (hqsub c hc))))

/-! Character-class lemmas for the `quote_plus`/`urlencode` output (C1). -/

/-- Every Unicode code point is below `0x110000`. -/
theorem char_toNat_lt (c : Char) : c.toNat < 1114112 := by
  rcases c.valid with h | ⟨_, h⟩
  · exact Nat.lt_trans h (by norm_num)
  · exact h

/-- The bytes of a UTF-8 encoding are below 256. -/
theorem utf8Encode_lt (c : Char) : ∀ b ∈ utf8Encode c, b < 256 := by
  have hv := char_toNat_lt c
  intro b hb
  unfold utf8Encode at hb
  dsimp only at hb
  by_cases h1 : c.toNat < 128
  · rw [if_pos h1] at hb
    simp at hb
    omega
  · rw [if_neg h1] at hb
    by_cases h2 : c.toNat < 2048
    · rw [if_pos h2] at hb
      simp at hb
      rcases hb with hb | hb <;> omega
    · rw [if_neg h2] at hb
      by_cases h3 : c.toNat < 65536
      · rw [if_pos h3] at hb
        simp at hb
        rcases hb with hb | hb | hb <;> omega
      · rw [if_neg h3] at hb
        simp at hb
        rcases hb with hb | hb | hb | hb <;> omega

/-- Uppercase hex digits are always-safe characters. -/
theorem hexUpper_safe {n : Nat} (h : n < 16) : isAlwaysSafe (hexUpper n) = true := by
  interval_cases n <;> decide

/-- Characters of a percent-escape are safe or `%`. -/
theorem pctByte_mem {x : Char} {b : Nat} (hb : b < 256) (hx : x ∈ pctByte b) :
    isAlwaysSafe x = true ∨ x = '%' := by
  unfold pctByte at hx
  simp only [List.mem_cons, List.not_mem_nil, or_false] at hx
  rcases hx with hx | hx | hx
  · exact Or.inr hx
  · exact Or.inl (hx ▸ hexUpper_safe (by omega))
  · exact Or.inl (hx ▸ hexUpper_safe (Nat.mod_lt _ (by omega)))

/-- Characters that `quote_plus` can output: safe characters, `+`, or
escape characters. -/
theorem quotePlus_mem {x : Char} : ∀ {s : List Char}, x ∈ quotePlus s →
    isAlwaysSafe x = true ∨ x = '+' ∨ x = '%' := by
  intro s
  induction s with
  | nil =>
    intro h
    simp [quotePlus] at h
  | cons c t ih =>
    intro h
    have hsplit : quotePlus (c :: t) =
        (if c = ' ' then ['+']
         else if isAlwaysSafe c then [c]
         else (utf8Encode c).foldr (fun b a => pctByte b ++ a) []) ++ quotePlus t := rfl
    rw [hsplit] at h
    rcases List.mem_append.mp h with h | h
    · by_cases h1 : c = ' '
      · rw [if_pos h1] at h
        simp at h
        exact Or.inr (Or.inl h)
      · rw [if_neg h1] at h
        by_cases h2 : isAlwaysSafe c = true
        · rw [if_pos h2] at h
          simp at h
          exact Or.inl (h ▸ h2)
        · rw [if_neg h2] at h
          have hfold : ∀ (bs : List Nat), (∀ b ∈ bs, b < 256) →
              x ∈ bs.foldr (fun b a => pctByte b ++ a) [] →
              isAlwaysSafe x = true ∨ x = '%' := by
            intro bs
            induction bs with
            | nil =>
              intro _ hx
              simp at hx
            | cons b bt ihb =>
              intro hlt hx
              rcases List.mem_append.mp hx with hx | hx
              · exact pctByte_mem (hlt b (List.mem_cons_self _ _)) hx
              · exact ihb (fun b' hb' => hlt b' (List.mem_cons_of_mem _ hb')) hx
          rcases hfold (utf8Encode c) (utf8Encode_lt c) h with h | h
          · exact Or.inl h
          · exact Or.inr (Or.inr h)
    · exact ih h

/-- Characters of one encoded `key=value` piece. -/
theorem encodePair_mem {x : Char} {p : List Char × List Char} (h : x ∈ encodePair p) :
    isAlwaysSafe x = true ∨ x = '+' ∨ x = '%' ∨ x = '=' := by
  unfold encodePair at h
  rcases List.mem_append.mp h with h | h
  · rcases quotePlus_mem h with h | h | h
    · exact Or.inl h
    · exact Or.inr (Or.inl h)
    · exact Or.inr (Or.inr (Or.inl h))
  · rcases List.mem_cons.mp h with h | h
    · exact Or.inr (Or.inr (Or.inr h))
    · rcases quotePlus_mem h with h | h | h
      · exact Or.inl h
      · exact Or.inr (Or.inl h)
      · exact Or.inr (Or.inr (Or.inl h))

/-- Characters of an `urlencode` output. -/
theorem urlencodeM_mem {x : Char} : ∀ {L : List (List Char × List Char)},
    x ∈ urlencodeM L →
    isAlwaysSafe x = true ∨ x = '+' ∨ x = '%' ∨ x = '=' ∨ x = '&' := by
  intro L
  induction L with
  | nil =>
    intro h
    simp [urlencodeM] at h
  | cons p ps ih =>
    intro h
    cases ps with
    | nil =>
      rcases encodePair_mem (by simpa [urlencodeM] using h) with h | h | h | h
      · exact Or.inl h
      · exact Or.inr (Or.inl h)
      · exact Or.inr (Or.inr (Or.inl h))
      · exact Or.inr (Or.inr (Or.inr (Or.inl h)))
    | cons p2 ps2 =>
      have hu : urlencodeM (p :: p2 :: ps2) =
          encodePair p ++ '&' :: urlencodeM (p2 :: ps2) := rfl
      rw [hu] at h
      rcases List.mem_append.mp h with h | h
      · rcases encodePair_mem h with h | h | h | h
        · exact Or.inl h
        · exact Or.inr (Or.inl h)
        · exact Or.inr (Or.inr (Or.inl h))
        · exact Or.inr (Or.inr (Or.inr (Or.inl h)))
      · rcases List.mem_cons.mp h with h | h
        · exact Or.inr (Or.inr (Or.inr (Or.inr h)))
        · exact ih h

/-- Characters of a normalized query. -/
theorem normQuery_mem {x : Char} {q : List Char} (h : x ∈ normQuery q) :
    isAlwaysSafe x = true ∨ x = '+' ∨ x = '%' ∨ x = '=' ∨ x = '&' := by
  unfold normQuery at h
  by_cases h1 : q ≠ []
  · rw [if_pos h1] at h
    dsimp only at h
    split at h
    · exact urlencodeM_mem h
    · simp at h
  · rw [if_neg h1] at h
    simp at h

/-- Query-output characters are not `#`, not `?`, and not control characters. -/
theorem qchar_facts {x : Char}
    (h : isAlwaysSafe x = true ∨ x = '+' ∨ x = '%' ∨ x = '=' ∨ x = '&') :
    x ≠ '#' ∧ x ≠ '?' ∧ isUnsafeUrlChar x = false := by
  have hunsafe : isUnsafeUrlChar x = true → x = '\t' ∨ x = '\x0d' ∨ x = '\n' := by
    intro hu
    unfold isUnsafeUrlChar at hu
    rcases Bool.or_eq_true_iff.mp hu with h1 | h1
    · rcases Bool.or_eq_true_iff.mp h1 with h2 | h2
      · exact Or.inl (by simpa using h2)
      · exact Or.inr (Or.inl (by simpa using h2))
    · exact Or.inr (Or.inr (by simpa using h1))
  rcases h with h | h | h | h | h
  · refine ⟨?_, ?_, ?_⟩
    · intro he
      rw [he] at h
      exact absurd h (by decide)
    · intro he
      rw [he] at h
      exact absurd h (by decide)
    · by_contra hu
      simp only [Bool.not_eq_false] at hu
      rcases hunsafe hu with he | he | he <;> rw [he] at h <;> exact absurd h (by decide)
  all_goals subst h
  all_goals exact ⟨by decide, by decide, by decide⟩


/-! Splitting lemmas for `str.split` (C1). -/

/-- `splitSepGo` on separator-free input yields a single piece. -/
theorem splitSepGo_no_sep (sep : Char) :
    ∀ (l acc : List Char), sep ∉ l → splitSepGo sep acc l = [acc.reverse ++ l] := by
  intro l
  induction l with
  | nil =>
    intro acc _
    simp [splitSepGo]
  | cons c t ih =>
    intro acc h
    have hc : ¬(c = sep) := fun hc => h (hc ▸ List.mem_cons_self c t)
    simp only [splitSepGo, if_neg hc]
    rw [ih (c :: acc) (fun hm => h (List.mem_cons_of_mem c hm))]
    simp

/-- `splitSepGo` when the input has a separator after a separator-free piece. -/
theorem splitSepGo_append (sep : Char) :
    ∀ (a acc b : List Char), sep ∉ a →
      splitSepGo sep acc (a ++ sep :: b) = (acc.reverse ++ a) :: splitSepGo sep [] b := by
  intro a
  induction a with
  | nil =>
    intro acc b _
    simp [splitSepGo]
  | cons c t ih =>
    intro acc b h
    have hc : ¬(c = sep) := fun hc => h (hc ▸ List.mem_cons_self c t)
    rw [List.cons_append]
    simp only [splitSepGo, if_neg hc]
    rw [ih (c :: acc) b (fun hm => h (List.mem_cons_of_mem c hm))]
    simp

/-- `split('&')` recovers the pieces of an `urlencode` join. -/
theorem splitSep_urlencode :
    ∀ (L : List (List Char × List Char)), L ≠ [] →
      splitSep '&' (urlencodeM L) = L.map encodePair := by
  intro L
  induction L with
  | nil =>
    intro h
    exact absurd rfl h
  | cons p ps ih =>
    intro _
    have hns : '&' ∉ encodePair p := by
      intro hm
      rcases encodePair_mem hm with h | h | h | h <;> revert h <;> decide
    cases ps with
    | nil =>
      have := splitSepGo_no_sep '&' (encodePair p) [] hns
      simpa [splitSep, urlencodeM] using this
    | cons p2 ps2 =>
      have hu : urlencodeM (p :: p2 :: ps2) =
          encodePair p ++ '&' :: urlencodeM (p2 :: ps2) := rfl
      unfold splitSep
      rw [hu, splitSepGo_append '&' (encodePair p) [] _ hns]
      have hih := ih (by simp)
      unfold splitSep at hih
      rw [hih]
      simp

/-- `filterMap` with a pointwise `some`-identity function. -/
theorem filterMap_some_id {α : Type} (f : α → Option α) :
    ∀ (l : List α), (∀ x ∈ l, f x = some x) → l.filterMap f = l := by
  intro l
  induction l with
  | nil =>
    intro _
    rfl
  | cons x t ih =>
    intro h
    simp [List.filterMap_cons, h x (List.mem_cons_self _ _),
      ih (fun y hy => h y (List.mem_cons_of_mem _ hy))]

/-- Characters of the pieces of `splitSepGo` come from the accumulator or
the input. -/
theorem splitSepGo_mem (sep : Char) :
    ∀ (l acc piece : List Char), piece ∈ splitSepGo sep acc l →
      ∀ c ∈ piece, c ∈ acc ∨ c ∈ l := by
  intro l
  induction l with
  | nil =>
    intro acc piece hp c hc
    simp [splitSepGo] at hp
    subst hp
    exact Or.inl (List.mem_reverse.mp hc)
  | cons c0 t ih =>
    intro acc piece hp c hc
    by_cases h0 : c0 = sep
    · simp only [splitSepGo, if_pos h0] at hp
      rcases List.mem_cons.mp hp with hp | hp
      · subst hp
        exact Or.inl (List.mem_reverse.mp hc)
      · rcases ih [] piece hp c hc with h | h
        · simp at h
        · exact Or.inr (List.mem_cons_of_mem _ h)
    · simp only [splitSepGo, if_neg h0] at hp
      rcases ih (c0 :: acc) piece hp c hc with h | h
      · rcases List.mem_cons.mp h with h | h
        · exact Or.inr (h ▸ List.mem_cons_self _ _)
        · exact Or.inl h
      · exact Or.inr (List.mem_cons_of_mem _ h)

/-- Characters of the pieces of `split` come from the input. -/
theorem splitSep_mem {sep : Char} {l piece : List Char}
    (hp : piece ∈ splitSep sep l) {c : Char} (hc : c ∈ piece) : c ∈ l := by
  rcases splitSepGo_mem sep l [] piece hp c hc with h | h
  · simp at h
  · exact h


/-! Percent-decoding lemmas (C1). -/

/-- Hex digits round-trip through `hexUpper`. -/
theorem hexVal_hexUpper {n : Nat} (h : n < 16) : hexVal (hexUpper n) = some n := by
  interval_cases n <;> decide

/-- `escByte` consumes exactly two characters. -/
theorem escByte_eq : ∀ {r : List Char} {b : Nat} {r2 : List Char},
    escByte r = some (b, r2) → ∃ c1 c2, r = c1 :: c2 :: r2 := by
  intro r b r2 h
  match r with
  | [] => exact absurd h (by simp [escByte])
  | [c] => exact absurd h (by simp [escByte])
  | c1 :: c2 :: t =>
    refine ⟨c1, c2, ?_⟩
    unfold escByte at h
    dsimp only at h
    split at h
    · simp only [Option.some.injEq, Prod.mk.injEq] at h
      rw [h.2]
    · simp at h

/-- The `unquote` tokenizer ignores extra fuel. -/
theorem unquoteTokensF_fuel :
    ∀ (f1 f2 : Nat) {l : List Char}, l.length ≤ f1 → l.length ≤ f2 →
      unquoteTokensF f1 l = unquoteTokensF f2 l := by
  intro f1
  induction f1 with
  | zero =>
    intro f2 l h1 _
    have hl : l = [] := List.eq_nil_of_length_eq_zero (Nat.le_zero.mp h1)
    subst hl
    cases f2 <;> rfl
  | succ f ih =>
    intro f2 l h1 h2
    cases l with
    | nil => cases f2 <;> rfl
    | cons c t =>
      cases f2 with
      | zero => simp at h2
      | succ g =>
        simp only [List.length_cons, Nat.succ_le_succ_iff] at h1 h2
        simp only [unquoteTokensF]
        by_cases hc : c = '%'
        · rw [if_pos hc, if_pos hc]
          rcases he : escByte t with _ | ⟨b, r2⟩ <;> dsimp only
          · rw [ih g h1 h2]
          · obtain ⟨c1, c2, hteq⟩ := escByte_eq he
            have hlen : r2.length + 2 = t.length := by
              rw [hteq]
              simp
            rw [ih g (by omega) (by omega)]
        · rw [if_neg hc, if_neg hc, ih g h1 h2]

/-- Tokenizing a literal character. -/
theorem unquoteTokens_cons_lit {c : Char} (t : List Char) (h : ¬(c = '%')) :
    unquoteTokens (c :: t) = Sum.inl c :: unquoteTokens t := by
  show unquoteTokensF (c :: t).length (c :: t) = _
  simp only [List.length_cons, unquoteTokensF, if_neg h]
  rfl

/-- Tokenizing a percent escape. -/
theorem unquoteTokens_pct {b : Nat} (t : List Char) (hb : b < 256) :
    unquoteTokens (pctByte b ++ t) = Sum.inr b :: unquoteTokens t := by
  have hesc : escByte (hexUpper (b / 16) :: hexUpper (b % 16) :: t) = some (b, t) := by
    unfold escByte
    dsimp only
    rw [@hexVal_hexUpper (b / 16) (by omega), @hexVal_hexUpper (b % 16) (Nat.mod_lt _ (by omega))]
    dsimp only
    rw [Nat.div_add_mod]
  have hx : pctByte b ++ t = '%' :: hexUpper (b / 16) :: hexUpper (b % 16) :: t := rfl
  rw [hx]
  show unquoteTokensF _ _ = _
  simp only [List.length_cons, unquoteTokensF, if_pos rfl, hesc]
  rw [unquoteTokensF_fuel (t.length + 1 + 1) t.length (by omega) (le_refl _)]
  rfl

/-- ASCII byte runs decode to the corresponding characters. -/
theorem utf8DecodeReplF_ascii :
    ∀ (bs : List Nat), (∀ b ∈ bs, b < 128) →
      utf8DecodeReplF bs.length bs = bs.map Char.ofNat := by
  intro bs
  induction bs with
  | nil =>
    intro _
    rfl
  | cons b t ih =>
    intro h
    have hb : b < 128 := h b (List.mem_cons_self _ _)
    simp only [List.length_cons, utf8DecodeReplF, if_pos hb]
    rw [ih (fun x hx => h x (List.mem_cons_of_mem _ hx))]
    rfl

/-- Reassembly of a token list whose bytes are all ASCII. -/
theorem unquoteGo_spec :
    ∀ (toks : List (Sum Char Nat)) (bs : List Nat), (∀ b ∈ bs, b < 128) →
      (∀ b : Nat, Sum.inr b ∈ toks → b < 128) →
      unquoteGo bs toks = (bs.reverse.map Char.ofNat) ++
        toks.map (Sum.elim id Char.ofNat) := by
  intro toks
  induction toks with
  | nil =>
    intro bs hbs _
    show utf8DecodeRepl bs.reverse = _
    unfold utf8DecodeRepl
    rw [utf8DecodeReplF_ascii _ (fun b hb => hbs b (List.mem_reverse.mp hb))]
    simp
  | cons tk rest ih =>
    intro bs hbs htk
    cases tk with
    | inl c =>
      show utf8DecodeRepl bs.reverse ++ c :: unquoteGo [] rest = _
      unfold utf8DecodeRepl
      rw [utf8DecodeReplF_ascii _ (fun b hb => hbs b (List.mem_reverse.mp hb)),
        ih [] (by simp) (fun b hb => htk b (List.mem_cons_of_mem _ hb))]
      simp
    | inr b =>
      show unquoteGo (b :: bs) rest = _
      have hbs2 : ∀ x ∈ b :: bs, x < 128 := by
        intro x hx
        rcases List.mem_cons.mp hx with h | h
        · exact h ▸ htk b (List.mem_cons_self _ _)
        · exact hbs x h
      rw [ih (b :: bs) hbs2 (fun x hx => htk x (List.mem_cons_of_mem _ hx))]
      simp

/-- After `+`-to-space replacement, the `unquote` tokenizer maps a
`quote_plus` output back to one token per input character. -/
theorem unquoteTokens_quotePlus :
    ∀ (s : List Char), (∀ c ∈ s, c.toNat < 128) →
      unquoteTokens ((quotePlus s).map (fun c => if c = '+' then ' ' else c)) =
        s.map (fun c =>
          if c = ' ' ∨ isAlwaysSafe c = true then Sum.inl c else Sum.inr c.toNat) := by
  intro s
  induction s with
  | nil =>
    intro _
    rfl
  | cons c t ih =>
    intro h
    have hc : c.toNat < 128 := h c (List.mem_cons_self _ _)
    have ht := fun x hx => h x (List.mem_cons_of_mem c hx)
    have hsplit : quotePlus (c :: t) =
        (if c = ' ' then ['+']
         else if isAlwaysSafe c then [c]
         else (utf8Encode c).foldr (fun b a => pctByte b ++ a) []) ++ quotePlus t := rfl
    rw [hsplit, List.map_append]
    by_cases h1 : c = ' '
    · rw [if_pos h1]
      have hmap : (['+'].map (fun c => if c = '+' then ' ' else c)) = [' '] := by decide
      rw [hmap, List.singleton_append, unquoteTokens_cons_lit _ (by decide), ih ht]
      subst h1
      rfl
    · rw [if_neg h1]
      by_cases h2 : isAlwaysSafe c = true
      · rw [if_pos h2]
        have hcplus : ¬(c = '+') := by
          intro he
          rw [he] at h2
          exact absurd h2 (by decide)
        have hcpct : ¬(c = '%') := by
          intro he
          rw [he] at h2
          exact absurd h2 (by decide)
        have hmap : ([c].map (fun c => if c = '+' then ' ' else c)) = [c] := by
          simp [if_neg hcplus]
        rw [hmap, List.singleton_append, unquoteTokens_cons_lit _ hcpct, ih ht]
        rw [List.map_cons, if_pos (Or.inr h2)]
      · rw [if_neg h2]
        have henc : utf8Encode c = [c.toNat] := by
          unfold utf8Encode
          dsimp only
          rw [if_pos hc]
        have hpiece : (utf8Encode c).foldr (fun b a => pctByte b ++ a) [] =
            pctByte c.toNat := by
          rw [henc]
          simp
        have hfix : ∀ x ∈ pctByte c.toNat, ¬(x = '+') := by
          intro x hx he
          rcases pctByte_mem (by omega) hx with hs | hs
          · rw [he] at hs
            exact absurd hs (by decide)
          · rw [he] at hs
            exact absurd hs (by decide)
        have hmap : ((pctByte c.toNat).map (fun c => if c = '+' then ' ' else c)) =
            pctByte c.toNat := by
          rw [List.map_congr_left (fun x hx => if_neg (hfix x hx))]
          exact List.map_id _
        rw [hpiece, hmap, unquoteTokens_pct _ (by omega), ih ht]
        rw [List.map_cons, if_neg ?hcond]
        case hcond =>
          intro hor
          rcases hor with hor | hor
          · exact h1 hor
          · exact h2 hor

/-- `parse_qsl`'s field decoding inverts `quote_plus` on ASCII input. -/
theorem unquotePlus_quotePlus (s : List Char) (h : ∀ c ∈ s, c.toNat < 128) :
    unquotePlusM (quotePlus s) = s := by
  unfold unquotePlusM unquoteM
  rw [unquoteTokens_quotePlus s h]
  rw [unquoteGo_spec _ [] (by simp) ?hbytes]
  case hbytes =>
    intro b hb
    obtain ⟨c, hc, heq⟩ := List.mem_map.mp hb
    by_cases hcond : c = ' ' ∨ isAlwaysSafe c = true
    · rw [if_pos hcond] at heq
      exact absurd heq (by simp)
    · rw [if_neg hcond] at heq
      have : c.toNat = b := by
        have := Sum.inr.inj heq
        exact this
      exact this ▸ h c hc
  rw [List.map_map]
  simp only [List.reverse_nil, List.map_nil, List.nil_append]
  have : ∀ c ∈ s, (Sum.elim id Char.ofNat ∘ fun c =>
      if c = ' ' ∨ isAlwaysSafe c = true then Sum.inl c else Sum.inr c.toNat) c = id c := by
    intro c _
    by_cases hcond : c = ' ' ∨ isAlwaysSafe c = true
    · simp [hcond]
    · simp only [Function.comp_apply, if_neg hcond, Sum.elim_inr]
      exact Char.ofNat_toNat c
  rw [List.map_congr_left this, List.map_id]


/-- `parse_qsl` inverts `urlencode` on ASCII pairs. -/
theorem parseQsl_urlencode (L : List (List Char × List Char)) (hL : L ≠ [])
    (hA : ∀ p ∈ L, (∀ c ∈ p.1, c.toNat < 128) ∧ (∀ c ∈ p.2, c.toNat < 128)) :
    parseQsl (urlencodeM L) = L := by
  unfold parseQsl
  rw [splitSep_urlencode L hL, List.filterMap_map]
  apply filterMap_some_id
  intro p hp
  obtain ⟨hk, hv⟩ := hA p hp
  have hne : ¬(encodePair p = []) := by
    unfold encodePair
    simp
  have hkeq : '=' ∉ quotePlus p.1 := by
    intro hm
    rcases quotePlus_mem hm with h | h | h <;> revert h <;> decide
  have hsp : splitFirst '=' (encodePair p) = some (quotePlus p.1, quotePlus p.2) :=
    splitFirst_append '=' _ _ hkeq
  simp only [Function.comp_apply, if_neg hne, hsp]
  rw [unquotePlus_quotePlus p.1 hk, unquotePlus_quotePlus p.2 hv]

/-! Order lemmas for the query-pair sort (C1). -/

/-- `strLeB` is total. -/
theorem strLeB_total : ∀ (a b : List Char), strLeB a b = true ∨ strLeB b a = true := by
  intro a
  induction a with
  | nil =>
    intro b
    exact Or.inl rfl
  | cons c t ih =>
    intro b
    cases b with
    | nil => exact Or.inr rfl
    | cons d u =>
      by_cases hcd : c = d
      · subst hcd
        rcases ih u with h | h
        · exact Or.inl (by simp [strLeB, h])
        · exact Or.inr (by simp [strLeB, h])
      · rcases lt_or_gt_of_ne hcd with h | h
        · exact Or.inl (by simp [strLeB, hcd, h])
        · have hdc : ¬(d = c) := fun he => hcd he.symm
          exact Or.inr (by simp [strLeB, hdc, h])

/-- `strLeB` is antisymmetric. -/
theorem strLeB_antisymm : ∀ (a b : List Char),
    strLeB a b = true → strLeB b a = true → a = b := by
  intro a
  induction a with
  | nil =>
    intro b _ h2
    cases b with
    | nil => rfl
    | cons d u => exact absurd h2 (by simp [strLeB])
  | cons c t ih =>
    intro b h1 h2
    cases b with
    | nil => exact absurd h1 (by simp [strLeB])
    | cons d u =>
      by_cases hcd : c = d
      · subst hcd
        simp only [strLeB, if_pos rfl] at h1 h2
        rw [ih u h1 h2]
      · have hdc : ¬(d = c) := fun he => hcd he.symm
        simp only [strLeB, if_neg hcd] at h1
        simp only [strLeB, if_neg hdc] at h2
        exact absurd (of_decide_eq_true h1) (lt_asymm (of_decide_eq_true h2))

/-- `strLeB` is transitive. -/
theorem strLeB_trans : ∀ (a b c : List Char),
    strLeB a b = true → strLeB b c = true → strLeB a c = true := by
  intro a
  induction a with
  | nil =>
    intro b c _ _
    rfl
  | cons x t ih =>
    intro b c h1 h2
    cases b with
    | nil => exact absurd h1 (by simp [strLeB])
    | cons y u =>
      cases c with
      | nil => exact absurd h2 (by simp [strLeB])
      | cons z v =>
        by_cases hxy : x = y
        · subst hxy
          simp only [strLeB, if_pos rfl] at h1
          by_cases hyz : x = z
          · subst hyz
            simp only [strLeB, if_pos rfl] at h2 ⊢
            exact ih u v h1 h2
          · simp only [strLeB, if_neg hyz] at h2 ⊢
            exact h2
        · simp only [strLeB, if_neg hxy] at h1
          have hx : x < y := of_decide_eq_true h1
          by_cases hyz : y = z
          · subst hyz
            simp only [strLeB, if_neg hxy]
            exact decide_eq_true hx
          · simp only [strLeB, if_neg hyz] at h2
            have hy : y < z := of_decide_eq_true h2
            have hxz : x < z := lt_trans hx hy
            simp only [strLeB, if_neg (ne_of_lt hxz)]
            exact decide_eq_true hxz

/-- The tuple order used by `sorted` is total. -/
theorem pairLe_total (p q : List Char × List Char) : pairLe p q ∨ pairLe q p := by
  unfold pairLe
  by_cases h : p.1 = q.1
  · rw [if_pos h, if_pos h.symm]
    exact strLeB_total p.2 q.2
  · have h2 : ¬(q.1 = p.1) := fun he => h he.symm
    rw [if_neg h, if_neg h2]
    exact strLeB_total p.1 q.1

/-- The tuple order used by `sorted` is transitive. -/
theorem pairLe_trans (p q r : List Char × List Char)
    (h1 : pairLe p q) (h2 : pairLe q r) : pairLe p r := by
  unfold pairLe at h1 h2 ⊢
  by_cases hpq : p.1 = q.1
  · rw [if_pos hpq] at h1
    by_cases hqr : q.1 = r.1
    · rw [if_pos hqr] at h2
      rw [if_pos (hpq.trans hqr)]
      exact strLeB_trans _ _ _ h1 h2
    · rw [if_neg hqr] at h2
      have hpr : ¬(p.1 = r.1) := fun he => hqr (hpq.symm.trans he)
      rw [if_neg hpr, hpq]
      exact h2
  · rw [if_neg hpq] at h1
    by_cases hqr : q.1 = r.1
    · have hpr : ¬(p.1 = r.1) := fun he => hpq (he.trans hqr.symm)
      rw [if_neg hpr, ← hqr]
      exact h1
    · rw [if_neg hqr] at h2
      have hpr : ¬(p.1 = r.1) := by
        intro he
        rw [he] at h1
        exact hqr (strLeB_antisymm _ _ h2 h1)
      rw [if_neg hpr]
      exact strLeB_trans _ _ _ h1 h2


/-- Lower-casing preserves ASCII. -/
theorem toLower_ascii {c : Char} (h : c.toNat < 128) : c.toLower.toNat < 128 := by
  rw [toNat_toLower]
  by_cases hu : c.toNat ≥ 65 ∧ c.toNat ≤ 90
  · rw [if_pos hu]
    omega
  · rw [if_neg hu]
    exact h

/-- Pairs decoded by `parse_qsl` from a percent-free ASCII query are ASCII. -/
theorem parseQsl_mem_ascii {q : List Char} (hA : ∀ c ∈ q, c.toNat < 128)
    (hP : '%' ∉ q) :
    ∀ kv ∈ parseQsl q, (∀ c ∈ kv.1, c.toNat < 128) ∧ (∀ c ∈ kv.2, c.toNat < 128) := by
  intro kv hkv
  unfold parseQsl at hkv
  obtain ⟨nv, hnv, hfn⟩ := List.mem_filterMap.mp hkv
  have hnvsub : ∀ c ∈ nv, c ∈ q := fun c hc => splitSep_mem hnv hc
  have hup : ∀ (s : List Char), (∀ c ∈ s, c ∈ q) →
      ∀ c ∈ unquotePlusM s, c.toNat < 128 := by
    intro s hs c hc
    unfold unquotePlusM at hc
    have hmp : '%' ∉ s.map (fun c => if c = '+' then ' ' else c) := by
      intro hm
      obtain ⟨x, hx, hxe⟩ := List.mem_map.mp hm
      by_cases hxp : x = '+'
      · rw [if_pos hxp] at hxe
        exact absurd hxe (by decide)
      · rw [if_neg hxp] at hxe
        exact hP (hxe ▸ hs x hx)
    rw [unquoteM_no_pct _ hmp] at hc
    obtain ⟨x, hx, hxe⟩ := List.mem_map.mp hc
    by_cases hxp : x = '+'
    · rw [if_pos hxp] at hxe
      rw [← hxe]
      decide
    · rw [if_neg hxp] at hxe
      exact hxe ▸ hA x (hs x hx)
  by_cases hnil : nv = []
  · rw [if_pos hnil] at hfn
    simp at hfn
  · rw [if_neg hnil] at hfn
    rcases hsf : splitFirst '=' nv with _ | ⟨n, v⟩ <;> rw [hsf] at hfn <;>
      dsimp only at hfn <;> simp only [Option.some.injEq] at hfn
    · rw [← hfn]
      refine ⟨hup nv hnvsub, ?_⟩
      intro c hc
      simp at hc
    · obtain ⟨heq, _⟩ := splitFirst_eq hsf
      have hn : ∀ c ∈ n, c ∈ q := fun c hc => hnvsub c (by
        rw [heq]
        exact List.mem_append_left _ hc)
      have hv : ∀ c ∈ v, c ∈ q := fun c hc => hnvsub c (by
        rw [heq]
        exact List.mem_append_right _ (List.mem_cons_of_mem _ hc))
      rw [← hfn]
      exact ⟨hup n hn, hup v hv⟩

/-- Query normalization is idempotent on percent-free ASCII queries. -/
theorem normQuery_normQuery (q : List Char)
    (hA : ∀ c ∈ q, c.toNat < 128) (hP : '%' ∉ q) :
    normQuery (normQuery q) = normQuery q := by
  by_cases hq : q = []
  · subst hq
    simp [normQuery]
  · have hstep : normQuery q = [] ∨
        ∃ L : List (List Char × List Char), L ≠ [] ∧ normQuery q = urlencodeM L ∧
          (∀ kv ∈ L, (∀ c ∈ kv.1, c.toNat < 128) ∧ (∀ c ∈ kv.2, c.toNat < 128) ∧
            lowerStr kv.1 = kv.1 ∧ skipQueryKeys.contains kv.1 = false) ∧
          L.Sorted pairLe := by
      by_cases hflt : (parseQsl q).filterMap (fun kv =>
          if skipQueryKeys.contains (lowerStr kv.1) then none
          else some (lowerStr kv.1, kv.2)) = []
      · left
        unfold normQuery
        rw [if_pos hq]
        dsimp only
        rw [if_neg (not_not_intro hflt)]
      · right
        refine ⟨((parseQsl q).filterMap (fun kv =>
            if skipQueryKeys.contains (lowerStr kv.1) then none
            else some (lowerStr kv.1, kv.2))).insertionSort pairLe, ?_, ?_, ?_, ?_⟩
        · intro he
          have hpm := List.perm_insertionSort pairLe ((parseQsl q).filterMap (fun kv =>
            if skipQueryKeys.contains (lowerStr kv.1) then none
            else some (lowerStr kv.1, kv.2)))
          rw [he] at hpm
          exact hflt hpm.symm.eq_nil
        · unfold normQuery
          rw [if_pos hq]
          dsimp only
          rw [if_pos hflt]
        · intro kv hkv
          have hkv2 := (List.perm_insertionSort pairLe _).mem_iff.mp hkv
          obtain ⟨kv0, hkv0, hfkv⟩ := List.mem_filterMap.mp hkv2
          by_cases hskip : skipQueryKeys.contains (lowerStr kv0.1) = true
          · rw [if_pos hskip] at hfkv
            simp at hfkv
          · rw [if_neg hskip] at hfkv
            simp only [Option.some.injEq] at hfkv
            obtain ⟨hka, hva⟩ := parseQsl_mem_ascii hA hP kv0 hkv0
            rw [← hfkv]
            refine ⟨?_, ?_, ?_, ?_⟩
            · intro c hc
              obtain ⟨x, hx, hxe⟩ := List.mem_map.mp hc
              exact hxe ▸ toLower_ascii (hka x hx)
            · exact hva
            · exact lowerStr_lowerStr kv0.1
            · simpa using hskip
        · haveI : IsTotal (List Char × List Char) pairLe := ⟨pairLe_total⟩
          haveI : IsTrans (List Char × List Char) pairLe := ⟨pairLe_trans⟩
          exact List.sorted_insertionSort pairLe _
    rcases hstep with h0 | ⟨L, hLne, hLeq, hLmem, hLsorted⟩
    · rw [h0]
      simp [normQuery]
    · rw [hLeq]
      have hne : ¬(urlencodeM L = []) := by
        cases L with
        | nil => exact absurd rfl hLne
        | cons kv rest =>
          cases rest with
          | nil =>
            show ¬(encodePair kv = [])
            unfold encodePair
            simp
          | cons kv2 rest2 =>
            show ¬(encodePair kv ++ '&' :: urlencodeM (kv2 :: rest2) = [])
            simp
      unfold normQuery
      rw [if_pos hne]
      dsimp only
      rw [parseQsl_urlencode L hLne (fun p hp => ⟨(hLmem p hp).1, (hLmem p hp).2.1⟩)]
      have hfid : L.filterMap (fun kv =>
          if skipQueryKeys.contains (lowerStr kv.1) then none
          else some (lowerStr kv.1, kv.2)) = L := by
        apply filterMap_some_id
        intro kv hkv
        obtain ⟨_, _, hlow, hskip⟩ := hLmem kv hkv
        have hcond : ¬(skipQueryKeys.contains (lowerStr kv.1) = true) := by
          rw [hlow, hskip]
          simp
        rw [if_neg hcond, hlow]
      rw [hfid, if_pos hLne, List.Sorted.insertionSort_eq hLsorted]


/-! Path-normalization lemmas (C1). -/

/-- `normPath` is the identity on a nonempty, slash-collapsed, percent-free
path that does not end in a removable trailing slash. -/
theorem normPath_fix (p : List Char) (hne : p ≠ []) (hadj : noAdjSlash p = true)
    (hpct : '%' ∉ p) (hlast : p = ['/'] ∨ p.getLast? ≠ some '/') :
    normPath p = p := by
  unfold normPath
  have hcond : ¬(p ≠ ['/'] ∧ p.getLast? = some '/') := by
    rcases hlast with h | h
    · intro hc
      exact hc.1 h
    · intro hc
      exact h hc.2
  rw [if_neg hcond]
  dsimp only
  rw [collapseSlashes_eq_self p hadj, if_neg hne]
  exact unquoteM_no_pct p hpct

/-- Structural facts about a `normPath` output for a percent-free input:
the result is nonempty, slash-collapsed, and percent-free, and its
characters come from the input or are slashes. -/
theorem normPath_props (p0 : List Char) (hpct : '%' ∉ p0) :
    normPath p0 ≠ [] ∧ noAdjSlash (normPath p0) = true ∧ '%' ∉ normPath p0 ∧
      (∀ c ∈ normPath p0, c ∈ p0 ∨ c = '/') := by
  unfold normPath
  dsimp only
  set p1 := if p0 ≠ ['/'] ∧ p0.getLast? = some '/' then p0.dropLast else p0 with hp1
  have hp1sub : ∀ c ∈ p1, c ∈ p0 := by
    intro c hc
    rw [hp1] at hc
    split at hc
    · exact (List.dropLast_sublist p0).subset hc
    · exact hc
  by_cases hc2 : collapseSlashes p1 = []
  · rw [hc2, if_pos rfl]
    have hux : unquoteM ("/".data) = "/".data := by decide
    rw [hux]
    refine ⟨by decide, by decide, by decide, ?_⟩
    intro c hc
    simp at hc
    exact Or.inr hc
  · rw [if_neg hc2]
    have hsub : ∀ c ∈ collapseSlashes p1, c ∈ p0 :=
      fun c hc => hp1sub c (collapseSlashes_mem p1 c hc)
    have hpc : '%' ∉ collapseSlashes p1 := fun hm => hpct (hsub '%' hm)
    rw [unquoteM_no_pct _ hpc]
    exact ⟨hc2, collapseSlashes_noAdj p1, hpc, fun c hc => Or.inl (hsub c hc)⟩

/-- A percent-free path that is empty or starts with a slash normalizes to
one starting with a slash. -/
theorem normPath_head (p0 : List Char) (hpct : '%' ∉ p0)
    (h : p0 = [] ∨ p0.head? = some '/') :
    (normPath p0).head? = some '/' := by
  rcases h with h | h
  · subst h
    decide
  · unfold normPath
    try dsimp only
    set p1 := if p0 ≠ ['/'] ∧ p0.getLast? = some '/' then p0.dropLast else p0 with hp1
    have hp1sub : ∀ c ∈ p1, c ∈ p0 := by
      intro c hc
      rw [hp1] at hc
      split at hc
      · exact (List.dropLast_sublist p0).subset hc
      · exact hc
    have hh1 : p1.head? = some '/' := by
      rw [hp1]
      split
      · rename_i hcond
        cases p0 with
        | nil => simp at h
        | cons c t =>
          cases t with
          | nil =>
            simp at h
            exact absurd (by rw [h]) hcond.1
          | cons d u =>
            simp at h
            rw [List.dropLast_cons₂]
            simp [h]
      · exact h
    by_cases hc2 : collapseSlashes p1 = []
    · rw [hc2, if_pos rfl]
      decide
    · rw [if_neg hc2]
      have hpc : '%' ∉ collapseSlashes p1 := by
        intro hm
        exact hpct (hp1sub '%' (collapseSlashes_mem p1 '%' hm))
      rw [unquoteM_no_pct _ hpc, collapseSlashes_head?]
      exact hh1


/-! Netloc- and scheme-normalization lemmas (C1). -/

/-- `replaceSubF` with an empty replacement only removes characters. -/
theorem replaceSubF_subset (needle : List Char) :
    ∀ (fuel : Nat) (l : List Char), ∀ c ∈ replaceSubF needle [] fuel l, c ∈ l := by
  intro fuel
  induction fuel with
  | zero =>
    intro l c hc
    exact hc
  | succ f ih =>
    intro l c hc
    cases l with
    | nil => exact hc
    | cons x t =>
      simp only [replaceSubF] at hc
      split at hc
      · simp only [List.nil_append] at hc
        exact List.mem_of_mem_drop (ih _ c hc)
      · rcases List.mem_cons.mp hc with h | h
        · exact h ▸ List.mem_cons_self _ _
        · exact List.mem_cons_of_mem _ (ih t c h)

/-- `replaceSub` with an empty replacement only removes characters. -/
theorem replaceSub_subset (needle l : List Char) :
    ∀ c ∈ replaceSub needle [] l, c ∈ l := by
  intro c hc
  unfold replaceSub at hc
  exact replaceSubF_subset needle l.length l c hc

/-- `normNetloc` outputs draw from the lower-cased input. -/
theorem normNetloc_mem (scheme n : List Char) :
    ∀ c ∈ normNetloc scheme n, c ∈ lowerStr n := by
  intro c hc
  unfold normNetloc at hc
  try dsimp only at hc
  have hstep : ∀ (m : List Char), (∀ x ∈ m, x ∈ lowerStr n) →
      c ∈ (if containsSub ":80".data m = true ∧ scheme = "http".data then
            replaceSub ":80".data [] m
          else if containsSub ":443".data m = true ∧ scheme = "https".data then
            replaceSub ":443".data [] m
          else m) → c ∈ lowerStr n := by
    intro m hm hcm
    split at hcm
    · exact hm c (replaceSub_subset _ _ c hcm)
    · split at hcm
      · exact hm c (replaceSub_subset _ _ c hcm)
      · exact hm c hcm
  split at hc
  · exact hstep _ (fun x hx => List.mem_of_mem_drop hx) hc
  · exact hstep _ (fun x hx => hx) hc

/-- Characters of a lower-cased list are fixed by lower-casing. -/
theorem mem_lowerStr_toLower {c : Char} {l : List Char} (h : c ∈ lowerStr l) :
    c.toLower = c := by
  obtain ⟨x, hx, he⟩ := List.mem_map.mp h
  rw [← he]
  exact toLower_toLower x

/-- A list of lower-case-fixed characters is fixed by `lowerStr`. -/
theorem lowerStr_fix_of_mem (l : List Char) (h : ∀ c ∈ l, c.toLower = c) :
    lowerStr l = l :=
  (List.map_congr_left h).trans (List.map_id l)

/-- `normNetloc` outputs are lower-case fixed points. -/
theorem normNetloc_lower (scheme n : List Char) :
    lowerStr (normNetloc scheme n) = normNetloc scheme n :=
  lowerStr_fix_of_mem _ (fun c hc => mem_lowerStr_toLower (normNetloc_mem scheme n c hc))

/-- `normNetloc` is the identity when none of its rewrites applies. -/
theorem normNetloc_fix (scheme n : List Char) (hlow : lowerStr n = n)
    (hwww : ¬("www.".data.isPrefixOf n = true))
    (h80 : ¬(containsSub ":80".data n = true ∧ scheme = "http".data))
    (h443 : ¬(containsSub ":443".data n = true ∧ scheme = "https".data)) :
    normNetloc scheme n = n := by
  unfold normNetloc
  rw [hlow]
  try dsimp only
  rw [if_neg hwww, if_neg h80, if_neg h443]

/-- `normNetloc` preserves the absence of netloc-terminating characters. -/
theorem normNetloc_stop (scheme n : List Char)
    (h : n.all (fun c => !netlocStop c) = true) :
    ∀ c ∈ normNetloc scheme n, netlocStop c = false := by
  intro c hc
  obtain ⟨x, hx, he⟩ := List.mem_map.mp (normNetloc_mem scheme n c hc)
  rw [List.all_eq_true] at h
  have hx2 := h x hx
  by_contra hne
  simp only [Bool.not_eq_false] at hne
  rw [← he] at hne
  rw [netlocStop_toLower hne] at hx2
  simp at hx2

/-- `normNetloc` preserves cleanliness. -/
theorem normNetloc_clean (scheme n : List Char)
    (h : ∀ c ∈ n, isUnsafeUrlChar c = false) :
    ∀ c ∈ normNetloc scheme n, isUnsafeUrlChar c = false := by
  intro c hc
  obtain ⟨x, hx, he⟩ := List.mem_map.mp (normNetloc_mem scheme n c hc)
  by_contra hne
  simp only [Bool.not_eq_false] at hne
  rw [← he] at hne
  have h2 := isUnsafeUrlChar_toLower hne
  rw [h x hx] at h2
  exact Bool.false_ne_true h2

/-- `normNetloc` of an empty netloc is empty. -/
theorem normNetloc_nil (scheme : List Char) : normNetloc scheme [] = [] := by
  rw [List.eq_nil_iff_forall_not_mem]
  intro c hc
  have := normNetloc_mem scheme [] c hc
  simp [lowerStr] at this

/-- `normScheme` is nonempty. -/
theorem normScheme_ne_nil (s : List Char) : normScheme s ≠ [] := by
  unfold normScheme
  try dsimp only
  split
  · decide
  · rename_i h
    exact h

/-- `normScheme` outputs are lower-case fixed points. -/
theorem normScheme_lower (s : List Char) :
    lowerStr (normScheme s) = normScheme s := by
  unfold normScheme
  try dsimp only
  split
  · decide
  · exact lowerStr_lowerStr s

/-- `normScheme` is the identity on nonempty lower-cased schemes. -/
theorem normScheme_fix (s : List Char) (h : lowerStr s = s) (hne : ¬(s = [])) :
    normScheme s = s := by
  unfold normScheme
  try dsimp only
  rw [h, if_neg hne]

/-- `normScheme` outputs are syntactically valid schemes. -/
theorem normScheme_wf (s : List Char)
    (hs : s ≠ [] → s.all schemeChar = true ∧
      ∃ c pre, s = c :: pre ∧ isAsciiAlpha c = true) :
    (normScheme s).all schemeChar = true ∧
      ∃ c pre, normScheme s = c :: pre ∧ isAsciiAlpha c = true := by
  unfold normScheme
  try dsimp only
  split
  · refine ⟨by decide, 'h', "ttps".data, by decide, by decide⟩
  · rename_i hlne
    have hsne : s ≠ [] := by
      intro he
      subst he
      exact hlne rfl
    obtain ⟨hall, c, pre, heq, hal⟩ := hs hsne
    constructor
    · rw [List.all_eq_true] at hall ⊢
      intro x hx
      obtain ⟨y, hy, hye⟩ := List.mem_map.mp hx
      exact hye ▸ schemeChar_toLower y (hall y hy)
    · refine ⟨c.toLower, lowerStr pre, by rw [heq]; rfl, isAsciiAlpha_toLower c hal⟩

/-- `normScheme` outputs are clean. -/
theorem normScheme_clean (s : List Char)
    (hs : s ≠ [] → s.all schemeChar = true ∧
      ∃ c pre, s = c :: pre ∧ isAsciiAlpha c = true) :
    ∀ c ∈ normScheme s, isUnsafeUrlChar c = false := by
  intro c hc
  have hall := (normScheme_wf s hs).1
  rw [List.all_eq_true] at hall
  exact schemeChar_not_unsafe (hall c hc)


/-! Reassembly lemmas: re-splitting an unparsed normalized URL (C1). -/

/-- `takeWhile`/`dropWhile` on an append whose second part starts with a
character failing the predicate. -/
theorem takeWhile_append_stop (p : Char → Bool) :
    ∀ (a b : List Char), (∀ c ∈ a, p c = true) →
      (∀ d, b.head? = some d → p d = false) →
      (a ++ b).takeWhile p = a ∧ (a ++ b).dropWhile p = b := by
  intro a
  induction a with
  | nil =>
    intro b _ hb
    simp only [List.nil_append]
    cases b with
    | nil => exact ⟨rfl, rfl⟩
    | cons d t =>
      have hd := hb d rfl
      constructor
      · simp [List.takeWhile_cons, hd]
      · simp [List.dropWhile_cons, hd]
  | cons x t ih =>
    intro b ha hb
    have hx : p x = true := ha x (List.mem_cons_self _ _)
    obtain ⟨h1, h2⟩ := ih b (fun c hc => ha c (List.mem_cons_of_mem _ hc)) hb
    rw [List.cons_append]
    constructor
    · simp [List.takeWhile_cons, hx, h1]
    · simp [List.dropWhile_cons, hx, h2]

/-- `contains` is false for an absent element. -/
theorem contains_eq_false_of_not_mem {c : Char} {l : List Char} (h : c ∉ l) :
    l.contains c = false := by
  simpa using h

/-- The path component of `_splitparams` keeps the path head. -/
theorem splitParams_head (p0 : List Char) :
    (splitParams p0).1 = [] ∨ (splitParams p0).1.head? = p0.head? := by
  unfold splitParams
  rcases hs : splitLastSlash p0 with _ | ⟨a, seg⟩
  · dsimp only
    rcases hf : splitFirst ';' p0 with _ | ⟨x, y⟩
    · dsimp only
      exact Or.inr rfl
    · dsimp only
      obtain ⟨heq, _⟩ := splitFirst_eq hf
      cases x with
      | nil => exact Or.inl rfl
      | cons x0 xt =>
        right
        rw [heq]
        rfl
  · dsimp only
    obtain ⟨heq, _⟩ := splitLastSlash_eq hs
    rcases hf : splitFirst ';' seg with _ | ⟨s1, s2⟩
    · dsimp only
      exact Or.inr rfl
    · dsimp only
      right
      rw [heq]
      cases a with
      | nil => rfl
      | cons a0 at2 => rfl

/-- `removeUnsafe` is the identity on clean input. -/
theorem removeUnsafe_id (l : List Char) (h : ∀ c ∈ l, isUnsafeUrlChar c = false) :
    removeUnsafe l = l := by
  apply List.filter_eq_self.mpr
  intro a ha
  rw [h a ha]
  rfl

/-- `splitScheme` on a reassembled `scheme:rest`. -/
theorem splitScheme_append (s rest : List Char)
    (hall : s.all schemeChar = true)
    (hshead : ∃ c pre, s = c :: pre ∧ isAsciiAlpha c = true)
    (hslow : lowerStr s = s) :
    splitScheme (s ++ ':' :: rest) = (s, rest) := by
  have hcol : ':' ∉ s := by
    intro hm
    rw [List.all_eq_true] at hall
    exact absurd (hall ':' hm) (by decide)
  unfold splitScheme
  rw [splitFirst_append ':' s rest hcol]
  obtain ⟨c, pre, heq, hal⟩ := hshead
  subst heq
  dsimp only
  rw [if_pos (by rw [Bool.and_eq_true]; exact ⟨hal, hall⟩), hslow]

/-- `splitNetloc` stage on a reassembled `//netloc + tail`. -/
theorem splitNetlocD_append (n tail : List Char)
    (hstop : ∀ c ∈ n, netlocStop c = false)
    (htail : ∀ d, tail.head? = some d → netlocStop d = true) :
    splitNetlocD ('/' :: '/' :: (n ++ tail)) = (n, tail) := by
  have hs : splitNetloc ('/' :: '/' :: (n ++ tail)) = some (n, tail) := by
    unfold splitNetloc
    rw [if_pos (show List.take 2 ('/' :: '/' :: (n ++ tail)) = ['/', '/'] from rfl)]
    obtain ⟨h1, h2⟩ := takeWhile_append_stop (fun c => !netlocStop c) n tail
      (fun c hc => by dsimp only; rw [hstop c hc]; rfl)
      (fun d hd => by dsimp only; rw [htail d hd]; rfl)
    have hd2 : ('/' :: '/' :: (n ++ tail)).drop 2 = n ++ tail := rfl
    rw [hd2, h1, h2]
  unfold splitNetlocD
  rw [hs]

/-- `splitFragment` without a hash. -/
theorem splitFragment_no_hash (l : List Char) (h : '#' ∉ l) :
    splitFragment l = (l, []) := by
  unfold splitFragment
  rw [splitFirst_of_not_mem h]

/-- `splitQuery` without a question mark. -/
theorem splitQuery_no_q (l : List Char) (h : '?' ∉ l) :
    splitQuery l = (l, []) := by
  unfold splitQuery
  rw [splitFirst_of_not_mem h]

/-- `splitQuery` on a reassembled `path?query`. -/
theorem splitQuery_append (a b : List Char) (h : '?' ∉ a) :
    splitQuery (a ++ '?' :: b) = (a, b) := by
  unfold splitQuery
  rw [splitFirst_append '?' a b h]


/-- Parsing an `urlunparse` of well-formed normalized components recovers
them exactly. -/
theorem urlparse_unparse (s n p q : List Char)
    (hsne : ¬(s = [])) (hsall : s.all schemeChar = true)
    (hshead : ∃ c pre, s = c :: pre ∧ isAsciiAlpha c = true)
    (hslow : lowerStr s = s)
    (hsclean : ∀ c ∈ s, isUnsafeUrlChar c = false)
    (hnne : ¬(n = [])) (hnstop : ∀ c ∈ n, netlocStop c = false)
    (hnclean : ∀ c ∈ n, isUnsafeUrlChar c = false)
    (hbr1 : '[' ∉ n) (hbr2 : ']' ∉ n)
    (hphead : p.head? = some '/')
    (hpnh : '#' ∉ p) (hpnq : '?' ∉ p) (hpns : ';' ∉ p)
    (hpclean : ∀ c ∈ p, isUnsafeUrlChar c = false)
    (hq : ∀ c ∈ q, isAlwaysSafe c = true ∨ c = '+' ∨ c = '%' ∨ c = '=' ∨ c = '&') :
    urlparseM (urlunparseM ⟨s, n, p, [], q, []⟩) = some ⟨s, n, p, [], q, []⟩ := by
  obtain ⟨pt, hp⟩ : ∃ pt, p = '/' :: pt := by
    cases p with
    | nil => simp at hphead
    | cons c t =>
      simp at hphead
      exact ⟨t, by rw [hphead]⟩
  have hout : urlunparseM ⟨s, n, p, [], q, []⟩ =
      s ++ ':' :: '/' :: '/' :: (n ++ (p ++ (if q = [] then [] else '?' :: q))) := by
    by_cases hqe : q = []
    · subst hqe
      simp [urlunparseM, urlunsplitM, hp, hnne, hsne]
    · simp [urlunparseM, urlunsplitM, hp, hnne, hsne, hqe]
  have hclean : ∀ c ∈ s ++ ':' :: '/' :: '/' ::
      (n ++ (p ++ (if q = [] then [] else '?' :: q))),
      isUnsafeUrlChar c = false := by
    intro c hc
    rcases List.mem_append.mp hc with hc | hc
    · exact hsclean c hc
    rcases List.mem_cons.mp hc with hc | hc
    · subst hc
      decide
    rcases List.mem_cons.mp hc with hc | hc
    · subst hc
      decide
    rcases List.mem_cons.mp hc with hc | hc
    · subst hc
      decide
    rcases List.mem_append.mp hc with hc | hc
    · exact hnclean c hc
    rcases List.mem_append.mp hc with hc | hc
    · exact hpclean c hc
    split at hc
    · simp at hc
    rcases List.mem_cons.mp hc with hc | hc
    · subst hc
      decide
    exact (qchar_facts (hq c hc)).2.2
  have hfirst : ∀ d, (p ++ (if q = [] then [] else '?' :: q)).head? = some d →
      netlocStop d = true := by
    intro d hd
    rw [hp, List.cons_append] at hd
    simp only [List.head?_cons, Option.some.injEq] at hd
    rw [← hd]
    decide
  have hnohash : '#' ∉ p ++ (if q = [] then [] else '?' :: q) := by
    intro hm
    rcases List.mem_append.mp hm with hm | hm
    · exact hpnh hm
    split at hm
    · simp at hm
    rcases List.mem_cons.mp hm with hm | hm
    · exact absurd hm (by decide)
    exact (qchar_facts (hq '#' hm)).1 rfl
  have hsplit : urlsplitM (s ++ ':' :: '/' :: '/' ::
      (n ++ (p ++ (if q = [] then [] else '?' :: q)))) = some (s, n, p, q, []) := by
    unfold urlsplitM
    rw [removeUnsafe_id _ hclean]
    dsimp only
    rw [splitScheme_append s _ hsall hshead hslow]
    try dsimp only
    rw [splitNetlocD_append n _ hnstop hfirst]
    try dsimp only
    rw [if_neg ?hbr]
    case hbr =>
      rw [contains_eq_false_of_not_mem hbr1, contains_eq_false_of_not_mem hbr2]
      simp
    try dsimp only
    rw [splitFragment_no_hash _ hnohash]
    try dsimp only
    by_cases hqe : q = []
    · subst hqe
      have hps : (p ++ (if ([] : List Char) = [] then [] else '?' :: ([] : List Char))) = p := by
        simp
      rw [hps, splitQuery_no_q p hpnq]
    · simp only [if_neg hqe]
      rw [splitQuery_append p q hpnq]
  rw [hout]
  unfold urlparseM
  rw [hsplit]
  dsimp only
  rw [splitParams_no_semi p hpns]


/-- C1 (amended): `_normalize_url` is not idempotent in general (see the
counterexample), but it is idempotent for every URL whose parse has empty
params, a percent-free and semicolon-free path, a percent-free ASCII query,
and whose normalized netloc is nonempty, bracket-free, not re-strippable
(`www.` or a default port) and whose normalized path does not end in a
removable trailing slash. -/
theorem normalize_idempotent_amended (url : List Char) (u : UrlParts)
    (hu : urlparseM url = some u)
    (hparams : u.params = [])
    (hpct : '%' ∉ u.path) (hsemi : ';' ∉ u.path)
    (hqasc : ∀ c ∈ u.query, c.toNat < 128) (hqpct : '%' ∉ u.query)
    (hnne : ¬(normNetloc (normScheme u.scheme) u.netloc = []))
    (hbr1 : '[' ∉ normNetloc (normScheme u.scheme) u.netloc)
    (hbr2 : ']' ∉ normNetloc (normScheme u.scheme) u.netloc)
    (hwww : ¬("www.".data.isPrefixOf (normNetloc (normScheme u.scheme) u.netloc) = true))
    (h80 : ¬(containsSub ":80".data (normNetloc (normScheme u.scheme) u.netloc) = true ∧
      normScheme u.scheme = "http".data))
    (h443 : ¬(containsSub ":443".data (normNetloc (normScheme u.scheme) u.netloc) = true ∧
      normScheme u.scheme = "https".data))
    (hlast : normPath u.path = ['/'] ∨ (normPath u.path).getLast? ≠ some '/') :
    normalizeUrlL (normalizeUrlL url) = normalizeUrlL url := by
  unfold urlparseM at hu
  rcases hup : urlsplitM url with _ | ⟨s0, n0, path0, q0, fr0⟩
  · rw [hup] at hu
    simp at hu
  rw [hup] at hu
  dsimp only at hu
  simp only [Option.some.injEq] at hu
  subst hu
  dsimp only at hparams hpct hsemi hqasc hqpct hnne hbr1 hbr2 hwww h80 h443 hlast
  obtain ⟨hwf1, hwf2, hwf3, hwf4, hwf5, hwf6, hwf7, hwf8⟩ := urlsplitM_wf hup
  have hu2 : urlparseM url = some ⟨s0, n0, (splitParams path0).1,
      (splitParams path0).2, q0, fr0⟩ := by
    unfold urlparseM
    rw [hup]
  have hnorm1 : normalizeUrlL url = urlunparseM
      ⟨normScheme s0, normNetloc (normScheme s0) n0,
       normPath (splitParams path0).1, (splitParams path0).2,
       normQuery q0, []⟩ := by
    unfold normalizeUrlL
    rw [hu2]
  rw [hparams] at hnorm1
  -- scheme facts
  have hsne := normScheme_ne_nil s0
  obtain ⟨hsall, hshead⟩ := normScheme_wf s0 hwf2
  have hslow := normScheme_lower s0
  have hsclean := normScheme_clean s0 hwf2
  -- netloc facts
  have hn0ne : ¬(n0 = []) := by
    intro he
    rw [he, normNetloc_nil] at hnne
    exact hnne rfl
  have hnstop := normNetloc_stop (normScheme s0) n0 hwf3
  have hnclean := normNetloc_clean (normScheme s0) n0
    (fun c hc => hwf8 c (Or.inr (Or.inl hc)))
  have hnlow := normNetloc_lower (normScheme s0) n0
  -- path facts
  have hPsub : ∀ c ∈ (splitParams path0).1, c ∈ path0 :=
    (splitParams_mem path0).1
  have hPhead : (splitParams path0).1 = [] ∨
      (splitParams path0).1.head? = some '/' := by
    rcases hwf7 hn0ne with h2 | h2
    · left
      rw [h2]
      rfl
    · rcases splitParams_head path0 with h | h
      · exact Or.inl h
      · exact Or.inr (by rw [h, h2])
  obtain ⟨hpne, hpadj, hppct, hpmem⟩ := normPath_props (splitParams path0).1 hpct
  have hphead := normPath_head (splitParams path0).1 hpct hPhead
  have hpnh : '#' ∉ normPath (splitParams path0).1 := by
    intro hm
    rcases hpmem '#' hm with h | h
    · exact hwf4 (hPsub '#' h)
    · exact absurd h (by decide)
  have hpnq : '?' ∉ normPath (splitParams path0).1 := by
    intro hm
    rcases hpmem '?' hm with h | h
    · exact hwf5 (hPsub '?' h)
    · exact absurd h (by decide)
  have hpns : ';' ∉ normPath (splitParams path0).1 := by
    intro hm
    rcases hpmem ';' hm with h | h
    · exact hsemi h
    · exact absurd h (by decide)
  have hpclean : ∀ c ∈ normPath (splitParams path0).1, isUnsafeUrlChar c = false := by
    intro c hc
    rcases hpmem c hc with h | h
    · exact hwf8 c (Or.inr (Or.inr (Or.inl (hPsub c h))))
    · subst h
      decide
  -- query facts
  have hqmem : ∀ c ∈ normQuery q0,
      isAlwaysSafe c = true ∨ c = '+' ∨ c = '%' ∨ c = '=' ∨ c = '&' :=
    fun c hc => normQuery_mem hc
  -- recovery of the normalized components by the second parse
  have hrec := urlparse_unparse (normScheme s0) (normNetloc (normScheme s0) n0)
    (normPath (splitParams path0).1) (normQuery q0)
    hsne hsall hshead hslow hsclean hnne hnstop hnclean hbr1 hbr2
    hphead hpnh hpnq hpns hpclean hqmem
  rw [hnorm1]
  unfold normalizeUrlL
  rw [hrec]
  dsimp only
  rw [normScheme_fix _ hslow hsne,
    normNetloc_fix _ _ hnlow hwww h80 h443,
    normPath_fix _ hpne hpadj hppct hlast,
    normQuery_normQuery q0 hqasc hqpct]

/-- C1 witness: the amended idempotence theorem applies to a concrete URL
with scheme, host, path and query. -/
theorem normalize_idempotent_amended_witness :
    normalizeUrlL (normalizeUrlL "https://example.com/a?b=c".data) =
      normalizeUrlL "https://example.com/a?b=c".data :=
  normalize_idempotent_amended "https://example.com/a?b=c".data
    ⟨"https".data, "example.com".data, "/a".data, [], "b=c".data, []⟩
    (by rfl) (by rfl) (by decide) (by decide) (by decide) (by decide)
    (by decide) (by decide) (by decide) (by decide) (by decide) (by decide)
    (by decide)


end Crawler
